import Mathlib

/-!
# Dynamic string helpers of `main/strings.c`

A shallow embedding of `__ast_str_helper` (formatted set/append) and
`__ast_str_helper2` (raw copy with optional comma escaping), followed by
theorems about them.

Conventions of the embedding.

* Bytes are natural numbers; `0` is the nul terminator, `92` the backslash
  and `44` the comma.
* The C `int` is 32 bits, `size_t` and `ssize_t` are 64 bits. The `int`
  locals of `__ast_str_helper` (`offset`, `res`, `added`, `need`) are
  integers kept in range by `to_int` (two's complement wrap-around), and a
  conversion of a signed value to `size_t` is `to_size_t`. Capacities and
  lengths of type `size_t` and the `ssize_t` limits are `Nat`/`Int`: they
  stay below `2 ^ 63` for every buffer that fits an address space.
* Pointers into the storage are indices. Every store is bounds-checked
  against the storage; a store outside it ends the run with
  `Fault.outOfBounds` (undefined behaviour in C).
* `ast_str_make_space` lives in `strings.h`, which is not part of the
  translated file. It is a parameter `make_space : ast_str → Nat → Option ast_str`
  (`none` is the non-zero "cannot extend" return, which leaves the buffer as
  it was); the theorems state what they assume about it.
* `vsnprintf` is the C library primitive; `fmt`/`ap` are represented by what
  they render to (`FmtOutcome`).
* The `do ... while (1)` loop of `__ast_str_helper` is driven by fuel,
  because the loop need not end: an arbitrary `make_space` could report
  success without enlarging the buffer; running out of fuel is
  `Fault.outOfFuel`.
* Both helpers also record, as ghost state, the requests they pass to
  `make_space` (capacity at the time of the call, requested capacity).
-/

namespace AstStr

/-! ## The embedding -/

/-- Reasons for which a run of the model has no result. -/
inductive Fault where
  | outOfBounds
  | outOfFuel
deriving DecidableEq, Repr

/-- Modelled from the spec: `struct ast_str` is declared in `strings.h`, which
is not part of the translated file. The fields are the ones the helpers read
and write through the macros `__AST_STR_LEN` (capacity, terminator included),
`__AST_STR_USED` (bytes used, terminator excluded) and `__AST_STR_STR` (the
storage); they are the `capacity`, `used` and `data` of the Buffer of the data
model. The `growable` tag is only read by `ast_str_make_space`. -/
structure ast_str where
  __AST_STR_LEN : Nat
  __AST_STR_USED : Nat
  __AST_STR_STR : List Nat
deriving DecidableEq, Repr

/-- Modelled from the spec: the enum constant of `strings.h` returned as the
"build failed" sentinel; the header gives it the value `-1`, the spec only
requires a sentinel that is not a byte count. -/
def AST_DYNSTR_BUILD_FAILED : Int := -1

/-- The largest value of a C `int` (32 bits). -/
def INT_MAX : Int := 2147483647

/-- The value held by a C `int` (32 bits, two's complement) after a conversion
to `int` or an `int` computation whose mathematical result is `z`. -/
def to_int (z : Int) : Int := (z + 2147483648) % 4294967296 - 2147483648

/-- The conversion of a signed value to `size_t` (64 bits): a negative value
wraps around. -/
def to_size_t (z : Int) : Nat := (z % 18446744073709551616).toNat

/-- The C string starting at the base of a storage: the bytes before the
first terminator. -/
def cstr (s : List Nat) : List Nat := s.takeWhile (fun c => c != 0)

/-- Bounds-checked store `s[i] = c`. -/
def poke (s : List Nat) (i c : Nat) : Option (List Nat) :=
  if i < s.length then some (s.set i c) else none

/-- Bounds-checked store of consecutive bytes starting at index `i`. -/
def pokes (s : List Nat) (i : Nat) : List Nat → Option (List Nat)
  | [] => some s
  | c :: cs =>
    match poke s i c with
    | none => none
    | some s1 => pokes s1 (i + 1) cs

/-- What `fmt` with its arguments renders to: a text, or an error of the
format primitive (which may already have stored some bytes). -/
inductive FmtOutcome where
  | text (t : List Nat)
  | error (junk : List Nat)
deriving DecidableEq, Repr

/-- The C library `vsnprintf(s + off, size, fmt, ap)`, the size-probing format
primitive: it stores at most `size - 1` bytes of the rendered text followed by
a terminator (nothing when `size = 0`) and returns the length of the whole
text as an `int`, or `-1` when that length is above `INT_MAX`; on an error it
returns a negative number, having stored at most `size` bytes. -/
def vsnprintf (s : List Nat) (off size : Nat) : FmtOutcome → Option (List Nat × Int)
  | .text t =>
    let res : Int := if (t.length : Int) ≤ INT_MAX then (t.length : Int) else -1
    if size = 0 then some (s, res)
    else (pokes s off (t.take (size - 1) ++ [0])).map (fun s1 => (s1, res))
  | .error junk => (pokes s off (junk.take size)).map (fun s1 => (s1, -1))

/-- State of `__ast_str_helper` when its loop is left. -/
structure FmtExit where
  buf : ast_str
  res : Int
  added : Int
  grows : List (Nat × Nat)
  probes : Nat
deriving DecidableEq, Repr

/-- The `do ... while (1)` loop of `__ast_str_helper` (lines 73-126);
`max_len` is the value after lines 69-71 and `offset` the `int` of line 66.
The locals `res`, `added` and `need` are `int`: their computations wrap with
`to_int`, a comparison with the `size_t` capacity and the argument of
`make_space` convert with `to_size_t`, and `/` truncates towards zero. -/
def fmt_loop (make_space : ast_str → Nat → Option ast_str) (fmt : FmtOutcome)
    (max_len : Int) (offset : Int) :
    Nat → ast_str → List (Nat × Nat) → Nat → Except Fault FmtExit
  | 0, _, _, _ => .error .outOfFuel
  | fuel + 1, buf, grows, probes =>
    -- `str + offset` must point into the storage or just past it
    if offset < 0 ∨ (buf.__AST_STR_LEN : Int) < offset then .error .outOfBounds
    else
      match vsnprintf buf.__AST_STR_STR offset.toNat (buf.__AST_STR_LEN - offset.toNat) fmt with
      | none => .error .outOfBounds
      | some (s, res) =>
        let buf1 : ast_str := { buf with __AST_STR_STR := s }
        if res < 0 then
          .ok ⟨buf1, AST_DYNSTR_BUILD_FAILED, 0, grows, probes + 1⟩
        else
          let added := res
          let need := to_int (offset + added + 1)
          if to_size_t need ≤ buf1.__AST_STR_LEN
              ∨ (max_len ≠ 0 ∧ max_len ≤ (buf1.__AST_STR_LEN : Int)) then
            .ok ⟨buf1, res, added, grows, probes + 1⟩
          else
            let need :=
              if max_len = 0 then to_int (need + (16 + need.tdiv 4))
              else if max_len < need then to_int max_len
              else need
            let grows1 := grows ++ [(buf1.__AST_STR_LEN, to_size_t need)]
            match make_space buf1 (to_size_t need) with
            | none => .ok ⟨buf1, AST_DYNSTR_BUILD_FAILED, added, grows1, probes + 1⟩
            | some buf2 => fmt_loop make_space fmt max_len offset fuel buf2 grows1 (probes + 1)

/-- Result of `__ast_str_helper`: the buffer after the call, the returned
`int`, and the ghost record of `make_space` requests and `vsnprintf` calls. -/
structure FmtRun where
  buf : ast_str
  res : Int
  grows : List (Nat × Nat)
  probes : Nat
deriving DecidableEq, Repr

/-- The function `__ast_str_helper(buf, max_len, append, fmt, ap)`. Line 66
converts the `size_t` `used` to the `int` `offset`; lines 129-131 compute
`offset + added` in `int` and convert it back to `size_t`. -/
def __ast_str_helper (make_space : ast_str → Nat → Option ast_str) (fuel : Nat)
    (buf : ast_str) (max_len : Int) (append : Bool) (fmt : FmtOutcome) :
    Except Fault FmtRun :=
  let offset : Int :=
    if append = true ∧ buf.__AST_STR_LEN ≠ 0 then to_int (buf.__AST_STR_USED : Int) else 0
  let max_len := if max_len < 0 then (buf.__AST_STR_LEN : Int) else max_len
  match fmt_loop make_space fmt max_len offset fuel buf [] 0 with
  | .error e => .error e
  | .ok x =>
    let used :=
      if x.buf.__AST_STR_LEN ≤ to_size_t (to_int (offset + x.added)) then x.buf.__AST_STR_LEN - 1
      else to_size_t (to_int (offset + x.added))
    -- with capacity 0 the index `len - 1` wraps around
    if x.buf.__AST_STR_LEN = 0 then .error .outOfBounds
    else
      match poke x.buf.__AST_STR_STR used 0 with
      | none => .error .outOfBounds
      | some s =>
        .ok ⟨{ x.buf with __AST_STR_USED := used, __AST_STR_STR := s }, x.res, x.grows, x.probes⟩

/-- Loop state of `__ast_str_helper2`: the buffer, the cursor `ptr` as an
index into the storage, the remaining destination budget `maxlen`, and the
ghost record of `make_space` requests. -/
structure CopyState where
  buf : ast_str
  ptr : Nat
  maxlen : Int
  grows : List (Nat × Nat)
deriving DecidableEq, Repr

/-- Lines 152-156: the inserted escape backslash. -/
def copy_escape (escapecommas : Bool) (c : Nat) (st : CopyState) : Except Fault CopyState :=
  if escapecommas = true ∧ (c = 92 ∨ c = 44) then
    match poke st.buf.__AST_STR_STR st.ptr 92 with
    | none => .error .outOfBounds
    | some s =>
      .ok { st with
            buf := { st.buf with __AST_STR_STR := s, __AST_STR_USED := st.buf.__AST_STR_USED + 1 }
            ptr := st.ptr + 1
            maxlen := st.maxlen - 1 }
  else .ok st

/-- One pass through the body of the `while` loop (lines 152-174) for the
source byte `c`. The boolean is `true` when the body ends in `break`. -/
def copy_body (make_space : ast_str → Nat → Option ast_str) (dynamic escapecommas : Bool)
    (c : Nat) (st : CopyState) : Except Fault (Bool × CopyState) :=
  match copy_escape escapecommas c st with
  | .error e => .error e
  | .ok st1 =>
    match poke st1.buf.__AST_STR_STR st1.ptr c with
    | none => .error .outOfBounds
    | some s =>
      let buf2 : ast_str :=
        { st1.buf with __AST_STR_STR := s, __AST_STR_USED := st1.buf.__AST_STR_USED + 1 }
      let ptr2 := st1.ptr + 1
      let maxlen2 := st1.maxlen - 1
      if buf2.__AST_STR_LEN ≤ ptr2 + 3
          ∨ (dynamic = true ∧ (maxlen2 = 0 ∨ (escapecommas = true ∧ maxlen2 - 1 = 0))) then
        let old := buf2.__AST_STR_LEN
        let grows2 := st1.grows ++ [(old, old * 2)]
        match make_space buf2 (old * 2) with
        | none => .ok (true, ⟨buf2, ptr2, maxlen2, grows2⟩)
        | some buf3 => .ok (false, ⟨buf3, ptr2, (old : Int), grows2⟩)
      else .ok (false, ⟨buf2, ptr2, maxlen2, st1.grows⟩)

/-- The `while` loop of `__ast_str_helper2` (lines 151-175). The source is
the list of bytes before its terminator: reading at the end of the list
reads the terminator. -/
def copy_loop (make_space : ast_str → Nat → Option ast_str) (dynamic escapecommas : Bool) :
    List Nat → Nat → CopyState → Except Fault CopyState
  | [], _, st => .ok st
  | c :: src, maxsrc, st =>
    if c ≠ 0 ∧ maxsrc ≠ 0 ∧ st.maxlen ≠ 0 ∧ (escapecommas = false ∨ st.maxlen - 1 ≠ 0) then
      match copy_body make_space dynamic escapecommas c st with
      | .error e => .error e
      | .ok (true, st1) => .ok st1
      | .ok (false, st1) => copy_loop make_space dynamic escapecommas src (maxsrc - 1) st1
    else .ok st

/-- Result of `__ast_str_helper2`: the buffer after the call (the function
returns its storage, read as a C string with `cstr`) and the ghost record of
`make_space` requests. -/
structure CopyRun where
  buf : ast_str
  grows : List (Nat × Nat)
deriving DecidableEq, Repr

/-- The function `__ast_str_helper2(buf, maxlen, src, maxsrc, append, escapecommas)`. -/
def __ast_str_helper2 (make_space : ast_str → Nat → Option ast_str)
    (buf : ast_str) (maxlen : Int) (src : List Nat) (maxsrc : Nat)
    (append escapecommas : Bool) : Except Fault CopyRun :=
  let dynamic := decide (maxlen = 0)
  let ptr := if append = true then buf.__AST_STR_USED else 0
  let maxlen := if maxlen < 1 then (buf.__AST_STR_LEN : Int) else maxlen
  match copy_loop make_space dynamic escapecommas src maxsrc ⟨buf, ptr, maxlen, []⟩ with
  | .error e => .error e
  | .ok st =>
    if st.maxlen = 0 ∧ st.ptr = 0 then .error .outOfBounds
    else
      let ptr := if st.maxlen = 0 then st.ptr - 1 else st.ptr
      match poke st.buf.__AST_STR_STR ptr 0 with
      | none => .error .outOfBounds
      | some s => .ok ⟨{ st.buf with __AST_STR_STR := s }, st.grows⟩

/-- The text returned by `__ast_str_helper2`. -/
def CopyRun.text (r : CopyRun) : List Nat := cstr r.buf.__AST_STR_STR

/-! ## Models of `make_space`, specification-level definitions and proof invariants -/

/-- Modelled from the spec: `ast_str_make_space` is defined in `strings.h`, which
is not part of the translated file. This is a Grow that always succeeds: it
keeps the buffer when the request is within the capacity and otherwise sets
the capacity to exactly the request, keeping the old bytes; the new bytes hold
`fill`. -/
def growFill (fill : Nat) (buf : ast_str) (new_len : Nat) : Option ast_str :=
  if new_len ≤ buf.__AST_STR_LEN then some buf
  else some { buf with
              __AST_STR_LEN := new_len
              __AST_STR_STR := buf.__AST_STR_STR
                ++ List.replicate (new_len - buf.__AST_STR_STR.length) fill }

/-- Modelled from the spec: `ast_str_make_space` is defined in `strings.h`, which
is not part of the translated file. This is a Grow that always fails and
leaves the buffer as it was (a buffer that cannot be extended). -/
def growFail (_ : ast_str) (_ : Nat) : Option ast_str := none

/-- The value returned by the format primitive. -/
def fmtRes : FmtOutcome → Int
  | .text t => if (t.length : Int) ≤ INT_MAX then (t.length : Int) else -1
  | .error _ => -1

/-- The capacity requested at lines 105-117 for the `int` required total
`need`: the `int` computed at lines 107 or 110, converted to `size_t`. -/
def growRequest (max_len : Int) (need : Int) : Nat :=
  to_size_t (if max_len = 0 then to_int (need + (16 + need.tdiv 4))
    else if max_len < need then to_int max_len
    else need)

/-- What a successful `make_space` guarantees: the capacity is at least the
request, `used` is kept, the storage has the new capacity and starts with the
old bytes. -/
def GrowSound (make_space : ast_str → Nat → Option ast_str) : Prop :=
  ∀ buf n buf2, buf.__AST_STR_STR.length = buf.__AST_STR_LEN → make_space buf n = some buf2 →
    n ≤ buf2.__AST_STR_LEN ∧ buf2.__AST_STR_USED = buf.__AST_STR_USED
      ∧ buf2.__AST_STR_STR.length = buf2.__AST_STR_LEN
      ∧ buf.__AST_STR_STR <+: buf2.__AST_STR_STR

/-- A `make_space` that never fails. -/
def GrowAlways (make_space : ast_str → Nat → Option ast_str) : Prop :=
  ∀ buf n, ∃ buf2, make_space buf n = some buf2

/-- A `make_space` that sets the capacity to exactly the request whenever the
request exceeds the capacity. -/
def GrowExact (make_space : ast_str → Nat → Option ast_str) : Prop :=
  ∀ buf n buf2, make_space buf n = some buf2 → buf.__AST_STR_LEN < n → buf2.__AST_STR_LEN = n

/-- The data-model invariants of a buffer: the storage has `__AST_STR_LEN`
bytes, `used` is below the capacity and the byte at `used` is the terminator. -/
def Invariants (buf : ast_str) : Prop :=
  buf.__AST_STR_STR.length = buf.__AST_STR_LEN
    ∧ buf.__AST_STR_USED < buf.__AST_STR_LEN
    ∧ buf.__AST_STR_STR[buf.__AST_STR_USED]? = some 0

/-- The storage after a successful `vsnprintf` of the text `t` at offset `off`
of a storage `s` with `off < s.length`. -/
def fmtStore (s : List Nat) (off : Nat) (t : List Nat) : List Nat :=
  s.take off ++ (t.take (s.length - off - 1) ++ [0])
    ++ s.drop (off + (min (s.length - off - 1) t.length + 1))

/-- The value of `used` computed at lines 129-131 from the final capacity, the
`int` offset and the `int` count of added bytes. -/
def fmtUsed (cap : Nat) (off added : Int) : Nat :=
  if cap ≤ to_size_t (to_int (off + added)) then cap - 1 else to_size_t (to_int (off + added))

/-- The buffer after the last probe of the text `t` at offset `off` and the
final update of `used` and of the terminator. -/
def fmtFinish (b : ast_str) (off : Nat) (t : List Nat) : ast_str :=
  { b with
    __AST_STR_USED := fmtUsed b.__AST_STR_LEN (off : Int) (t.length : Int)
    __AST_STR_STR :=
      (fmtStore b.__AST_STR_STR off t).set
        (fmtUsed b.__AST_STR_LEN (off : Int) (t.length : Int)) 0 }

/-- The bytes stored for one source byte: the byte itself, preceded by a
backslash when escaping is on and the byte is a backslash or a comma. -/
def emit (escapecommas : Bool) (c : Nat) : List Nat :=
  if escapecommas = true ∧ (c = 92 ∨ c = 44) then [92, c] else [c]

/-- The bytes stored for a whole source. -/
def copied (escapecommas : Bool) : List Nat → List Nat
  | [] => []
  | c :: cs => emit escapecommas c ++ copied escapecommas cs

/-- The state reached by the stores and counter updates of one loop body
(lines 152-160), before the growth test. -/
def afterStores (escapecommas : Bool) (c : Nat) (st : CopyState) : CopyState :=
  { buf := { st.buf with
             __AST_STR_USED := st.buf.__AST_STR_USED + (emit escapecommas c).length
             __AST_STR_STR := st.buf.__AST_STR_STR.take st.ptr ++ emit escapecommas c
               ++ st.buf.__AST_STR_STR.drop (st.ptr + (emit escapecommas c).length) }
    ptr := st.ptr + (emit escapecommas c).length
    maxlen := st.maxlen - ((emit escapecommas c).length : Int)
    grows := st.grows }

/-- The room one loop pass may need: two bytes with escaping, one without. -/
def passWidth (escapecommas : Bool) : Nat := if escapecommas = true then 2 else 1

/-- Loop invariant of the dynamic raw copy: the storage has the recorded
capacity, the cursor leaves room for one pass, and the budget covers one pass. -/
def DynInv (escapecommas : Bool) (st : CopyState) : Prop :=
  st.buf.__AST_STR_STR.length = st.buf.__AST_STR_LEN
    ∧ st.ptr + passWidth escapecommas ≤ st.buf.__AST_STR_LEN
    ∧ (passWidth escapecommas : Int) ≤ st.maxlen

/-- The escaped form of a text, in the words of the specification: every
backslash or comma is preceded by a backslash, every other byte stands alone. -/
def escapedText : List Nat → List Nat
  | [] => []
  | b :: bs => (if b = 92 ∨ b = 44 then [92, b] else [b]) ++ escapedText bs

/-- The `make_space` requests of a copy that starts at capacity 8 and doubles
`k` times: (capacity at the call, requested capacity). -/
def growTrace (k : Nat) : List (Nat × Nat) :=
  (List.range k).map (fun i => (8 * 2 ^ i, 8 * 2 ^ i * 2))

/-- Ghost invariant of the dynamic copy without escaping from capacity 8: the
budget reaches zero no earlier than the cursor comes within 3 bytes of the end,
the capacity is 8 doubled once per recorded request, and after a growth the
capacity is at most twice the cursor plus 3. -/
def DoublingInv (st : CopyState) : Prop :=
  (st.buf.__AST_STR_LEN : Int) ≤ (st.ptr : Int) + st.maxlen + 3
    ∧ ∃ k, st.grows = growTrace k ∧ st.buf.__AST_STR_LEN = 8 * 2 ^ k
        ∧ (k = 0 ∨ st.buf.__AST_STR_LEN ≤ 2 * (st.ptr + 3))

/-! ## Concrete inputs -/

/-- An empty buffer of capacity 4. -/
def emptyBuf4 : ast_str := ⟨4, 0, [0, 0, 0, 0]⟩

/-- A buffer of capacity 16 holding "ab"; the bytes after the terminator are
uninitialised storage, here the byte 7. -/
def abBuf16 : ast_str := ⟨16, 2, [97, 98, 0, 7, 7, 7, 7, 7, 7, 7, 7, 7, 7, 7, 7, 7]⟩

/-- A rendering of fifty bytes "A". -/
def fiftyBytes : List Nat := List.replicate 50 65

/-- A full buffer of capacity 4 holding "abc". -/
def fullBuf4 : ast_str := ⟨4, 3, [97, 98, 99, 0]⟩

/-- A full buffer of capacity 16 holding fifteen bytes "A". -/
def fullBuf16 : ast_str := ⟨16, 15, List.replicate 15 65 ++ [0]⟩

/-- An empty buffer of capacity 4 whose bytes after the terminator are
uninitialised storage, here the byte 7. -/
def rawBuf4 : ast_str := ⟨4, 0, [0, 7, 7, 7]⟩

/-- A rendering of `2 ^ 31` bytes "A", one more than `INT_MAX`. -/
def hugeText : List Nat := List.replicate 2147483648 65

theorem poke_of_lt {s : List Nat} {i : Nat} (c : Nat) (h : i < s.length) :
    poke s i c = some (s.set i c) := by
  simp [poke, h]

theorem pokes_closed (cs : List Nat) : ∀ (s : List Nat) (i : Nat), i + cs.length ≤ s.length →
    pokes s i cs = some (s.take i ++ cs ++ s.drop (i + cs.length)) := by
  induction cs with
  | nil => intro s i _; simp [pokes]
  | cons c cs ih =>
    intro s i h
    simp only [List.length_cons] at h
    have hi : i < s.length := by omega
    simp only [pokes, poke_of_lt c hi]
    rw [ih (s.set i c) (i + 1) (by simp; omega)]
    congr 1
    rw [List.set_eq_take_append_cons_drop, if_pos hi]
    have h1 : (List.take i s ++ c :: List.drop (i + 1) s).take (i + 1) = List.take i s ++ [c] := by
      rw [List.take_append_eq_append_take]
      simp [List.length_take, Nat.min_eq_left (Nat.le_of_lt hi)]
    have h2 : (List.take i s ++ c :: List.drop (i + 1) s).drop (i + 1 + cs.length)
        = List.drop (i + (cs.length + 1)) s := by
      rw [List.drop_append_eq_append_drop]
      simp [List.length_take, Nat.min_eq_left (Nat.le_of_lt hi)]
      have e1 : List.drop (i + 1 + cs.length) (List.take i s) = [] := by
        apply List.drop_eq_nil_of_le; simp; omega
      have e2 : i + 1 + cs.length - i = cs.length + 1 := by omega
      rw [e1, e2]
      simp [List.drop_drop]
      congr 1; omega
    rw [h1, h2]
    simp [List.length_cons]

theorem take_set_of_le (l : List Nat) (a : Nat) {m n : Nat} (h : m ≤ n) :
    (l.set n a).take m = l.take m := by
  apply List.ext_getElem?
  intro i
  rw [List.getElem?_take, List.getElem?_take]
  split
  · rw [List.getElem?_set_ne (by omega)]
  · rfl

theorem fmtStore_length (s : List Nat) (t : List Nat) {o : Nat} (h : o < s.length) :
    (fmtStore s o t).length = s.length := by
  simp [fmtStore, List.length_take]; omega

theorem fmtStore_take (s : List Nat) (t : List Nat) {off : Nat} (h : off < s.length) :
    (fmtStore s off t).take off = s.take off := by
  unfold fmtStore
  rw [List.append_assoc, List.take_append_of_le_length (by simp [List.length_take]; omega)]
  simp [List.take_take]

theorem fmtStore_trunc (s : List Nat) (t : List Nat) {off : Nat} (h : off < s.length)
    (hbig : s.length ≤ off + t.length) :
    (fmtStore s off t).take (s.length - 1) = s.take off ++ t.take (s.length - 1 - off) := by
  unfold fmtStore
  have e : s.length - off - 1 = s.length - 1 - off := by omega
  rw [e, List.append_assoc, List.append_assoc, ← List.append_assoc (List.take off s)]
  apply List.take_left'
  simp [List.length_take]; omega

theorem growFill_sound (fill : Nat) : GrowSound (growFill fill) := by
  intro buf n buf2 hwf h
  unfold growFill at h
  split at h
  · cases h
    exact ⟨by assumption, rfl, hwf, List.prefix_refl _⟩
  · cases h
    refine ⟨le_refl _, rfl, ?_, List.prefix_append _ _⟩
    simp; omega

theorem growFill_always (fill : Nat) : GrowAlways (growFill fill) := by
  intro buf n
  unfold growFill
  split <;> exact ⟨_, rfl⟩

theorem growFill_exact (fill : Nat) : GrowExact (growFill fill) := by
  intro buf n buf2 h hlt
  unfold growFill at h
  rw [if_neg (by omega)] at h
  cases h
  rfl

theorem set_eq_splice (s : List Nat) (c : Nat) {i : Nat} (h : i < s.length) :
    s.set i c = s.take i ++ [c] ++ s.drop (i + 1) := by
  rw [List.set_eq_take_append_cons_drop, if_pos h]; simp

theorem copy_body_eq (make_space : ast_str → Nat → Option ast_str) (dynamic escapecommas : Bool)
    (c : Nat) (st : CopyState)
    (h : st.ptr + (emit escapecommas c).length ≤ st.buf.__AST_STR_STR.length) :
    copy_body make_space dynamic escapecommas c st =
      if (afterStores escapecommas c st).buf.__AST_STR_LEN ≤ (afterStores escapecommas c st).ptr + 3
          ∨ (dynamic = true ∧ ((afterStores escapecommas c st).maxlen = 0
              ∨ (escapecommas = true ∧ (afterStores escapecommas c st).maxlen - 1 = 0))) then
        match make_space (afterStores escapecommas c st).buf (st.buf.__AST_STR_LEN * 2) with
        | none => .ok (true,
            { afterStores escapecommas c st with
              grows := st.grows ++ [(st.buf.__AST_STR_LEN, st.buf.__AST_STR_LEN * 2)] })
        | some buf3 => .ok (false,
            ⟨buf3, (afterStores escapecommas c st).ptr, (st.buf.__AST_STR_LEN : Int),
              st.grows ++ [(st.buf.__AST_STR_LEN, st.buf.__AST_STR_LEN * 2)]⟩)
      else .ok (false, afterStores escapecommas c st) := by
  by_cases he : escapecommas = true ∧ (c = 92 ∨ c = 44)
  · have hem : emit escapecommas c = [92, c] := by simp [emit, he]
    rw [hem] at h
    simp only [List.length_cons, List.length_nil] at h
    have hs : ((st.buf.__AST_STR_STR.set st.ptr 92).set (st.ptr + 1) c)
        = st.buf.__AST_STR_STR.take st.ptr ++ [92, c] ++ st.buf.__AST_STR_STR.drop (st.ptr + 2) := by
      have := pokes_closed [92, c] st.buf.__AST_STR_STR st.ptr (by simpa using h)
      simp only [pokes, poke_of_lt 92 (show st.ptr < st.buf.__AST_STR_STR.length by omega),
        poke_of_lt c (show st.ptr + 1 < (st.buf.__AST_STR_STR.set st.ptr 92).length by
          simp; omega)] at this
      simpa using this
    simp only [copy_body, copy_escape, if_pos he,
      poke_of_lt 92 (show st.ptr < st.buf.__AST_STR_STR.length by omega),
      poke_of_lt c (show st.ptr + 1 < (st.buf.__AST_STR_STR.set st.ptr 92).length by
          simp; omega), hs, afterStores, hem, List.length_cons, List.length_nil]
    simp only [Nat.add_assoc, Nat.reduceAdd, Int.sub_sub]
    rfl
  · have hem : emit escapecommas c = [c] := by simp [emit, he]
    rw [hem] at h
    simp only [List.length_cons, List.length_nil] at h
    simp only [copy_body, copy_escape, if_neg he,
      poke_of_lt c (show st.ptr < st.buf.__AST_STR_STR.length by omega),
      set_eq_splice _ c (show st.ptr < st.buf.__AST_STR_STR.length by omega),
      afterStores, hem, List.length_cons, List.length_nil]
    rfl

theorem emit_length_le (escapecommas : Bool) (c : Nat) :
    1 ≤ (emit escapecommas c).length ∧ (emit escapecommas c).length ≤ passWidth escapecommas := by
  unfold emit passWidth
  by_cases h1 : escapecommas = true
  · by_cases h2 : c = 92 ∨ c = 44
    · simp [h1, h2]
    · simp [h1, h2]
  · simp [h1]

theorem afterStores_facts (escapecommas : Bool) (c : Nat) (st : CopyState)
    (hwf : st.buf.__AST_STR_STR.length = st.buf.__AST_STR_LEN)
    (h : st.ptr + (emit escapecommas c).length ≤ st.buf.__AST_STR_LEN) :
    (afterStores escapecommas c st).buf.__AST_STR_STR.length = st.buf.__AST_STR_LEN
      ∧ (afterStores escapecommas c st).buf.__AST_STR_STR.take (st.ptr + (emit escapecommas c).length)
          = st.buf.__AST_STR_STR.take st.ptr ++ emit escapecommas c := by
  constructor
  · simp [afterStores, List.length_take]; omega
  · simp only [afterStores]
    apply List.take_left'
    simp [List.length_take]; omega

theorem take_of_initial {s1 s2 : List Nat} (h : s1 <+: s2) {n : Nat} (hn : n ≤ s1.length) :
    s2.take n = s1.take n := by
  obtain ⟨r, rfl⟩ := h
  exact List.take_append_of_le_length hn

theorem copy_body_dynamic (make_space : ast_str → Nat → Option ast_str)
    (hs : GrowSound make_space) (ha : GrowAlways make_space)
    (escapecommas : Bool) (c : Nat) (st : CopyState) (hinv : DynInv escapecommas st) :
    ∃ st1, copy_body make_space true escapecommas c st = .ok (false, st1)
      ∧ DynInv escapecommas st1
      ∧ st1.ptr = st.ptr + (emit escapecommas c).length
      ∧ st1.buf.__AST_STR_STR.take st1.ptr = st.buf.__AST_STR_STR.take st.ptr ++ emit escapecommas c
      ∧ st1.buf.__AST_STR_USED = st.buf.__AST_STR_USED + (emit escapecommas c).length
      ∧ ((st.buf.__AST_STR_LEN > st.ptr + (emit escapecommas c).length + 3
            ∧ st1.buf.__AST_STR_LEN = st.buf.__AST_STR_LEN
            ∧ st1.maxlen = st.maxlen - ((emit escapecommas c).length : Int)
            ∧ st1.grows = st.grows)
          ∨ ((st.buf.__AST_STR_LEN ≤ st.ptr + (emit escapecommas c).length + 3
                ∨ st.maxlen - ((emit escapecommas c).length : Int) = 0
                ∨ (escapecommas = true ∧ st.maxlen - ((emit escapecommas c).length : Int) - 1 = 0))
            ∧ (∃ b, b.__AST_STR_LEN = st.buf.__AST_STR_LEN
                  ∧ make_space b (st.buf.__AST_STR_LEN * 2) = some st1.buf)
            ∧ st.buf.__AST_STR_LEN * 2 ≤ st1.buf.__AST_STR_LEN
            ∧ st1.maxlen = (st.buf.__AST_STR_LEN : Int)
            ∧ st1.grows = st.grows ++ [(st.buf.__AST_STR_LEN, st.buf.__AST_STR_LEN * 2)])) := by
  obtain ⟨hwf, hptr, hmax⟩ := hinv
  obtain ⟨he1, he2⟩ := emit_length_le escapecommas c
  have hroom : st.ptr + (emit escapecommas c).length ≤ st.buf.__AST_STR_LEN := by omega
  obtain ⟨hlen, htake⟩ := afterStores_facts escapecommas c st hwf hroom
  rw [copy_body_eq make_space true escapecommas c st (by omega)]
  have hw : passWidth escapecommas ≤ 2 := by unfold passWidth; split <;> omega
  split
  · rename_i hcond
    obtain ⟨buf3, hg⟩ := ha (afterStores escapecommas c st).buf (st.buf.__AST_STR_LEN * 2)
    rw [hg]
    obtain ⟨hreq, hu3, hwf3, hpre⟩ := hs _ _ _ (by simpa [afterStores] using hlen) hg
    refine ⟨_, rfl, ⟨hwf3, ?_, ?_⟩, rfl, ?_, ?_, Or.inr ⟨?_, ⟨(afterStores escapecommas c st).buf, rfl, hg⟩, hreq, rfl, rfl⟩⟩
    · simp only [afterStores]; omega
    · simp only; omega
    · simp only
      rw [take_of_initial hpre (by simp only [afterStores] at hlen ⊢; omega)]
      exact htake
    · simp only [hu3, afterStores]
    · simp only [afterStores] at hcond
      rcases hcond with h | ⟨_, h | h⟩
      · exact Or.inl h
      · exact Or.inr (Or.inl h)
      · exact Or.inr (Or.inr h)
  · rename_i hcond
    simp only [afterStores, true_and, not_or, not_and] at hcond
    refine ⟨_, rfl, ⟨by simpa [afterStores] using hlen, ?_, ?_⟩, rfl, htake, rfl,
      Or.inl ⟨by omega, rfl, rfl, rfl⟩⟩
    · simp only [afterStores]; omega
    · simp only [afterStores]
      have h1 := hcond.2.1
      have h2 := hcond.2.2
      cases escapecommas
      · have hpw : passWidth false = 1 := rfl
        omega
      · have hpw : passWidth true = 2 := rfl
        have h3 := h2 rfl
        omega

theorem copy_loop_dynamic (make_space : ast_str → Nat → Option ast_str)
    (hs : GrowSound make_space) (ha : GrowAlways make_space) (escapecommas : Bool)
    (Q : CopyState → Prop)
    (hQ : ∀ st c st1, DynInv escapecommas st → Q st →
      copy_body make_space true escapecommas c st = .ok (false, st1) → Q st1) :
    ∀ (src : List Nat) (maxsrc : Nat) (st : CopyState),
      (∀ c ∈ src, c ≠ 0) → src.length ≤ maxsrc → DynInv escapecommas st → Q st →
      ∃ st1, copy_loop make_space true escapecommas src maxsrc st = .ok st1
        ∧ DynInv escapecommas st1 ∧ Q st1
        ∧ st1.ptr = st.ptr + (copied escapecommas src).length
        ∧ st1.buf.__AST_STR_STR.take st1.ptr
            = st.buf.__AST_STR_STR.take st.ptr ++ copied escapecommas src
        ∧ st1.buf.__AST_STR_USED = st.buf.__AST_STR_USED + (copied escapecommas src).length := by
  intro src
  induction src with
  | nil =>
    intro maxsrc st _ _ hinv hq
    exact ⟨st, rfl, hinv, hq, by simp [copied], by simp [copied], by simp [copied]⟩
  | cons c src ih =>
    intro maxsrc st hnz hlen hinv hq
    simp only [List.length_cons] at hlen
    have hc : c ≠ 0 := hnz c (List.mem_cons_self _ _)
    have hcond : c ≠ 0 ∧ maxsrc ≠ 0 ∧ st.maxlen ≠ 0
        ∧ (escapecommas = false ∨ st.maxlen - 1 ≠ 0) := by
      obtain ⟨_, _, hmax⟩ := hinv
      refine ⟨hc, by omega, ?_, ?_⟩
      · unfold passWidth at hmax; split at hmax <;> omega
      · cases escapecommas
        · exact Or.inl rfl
        · have hpw : passWidth true = 2 := rfl
          exact Or.inr (by omega)
    obtain ⟨st1, hb, hinv1, hp1, ht1, hu1, _⟩ :=
      copy_body_dynamic make_space hs ha escapecommas c st hinv
    obtain ⟨st2, hl2, hinv2, hq2, hp2, ht2, hu2⟩ :=
      ih (maxsrc - 1) st1 (fun x hx => hnz x (List.mem_cons_of_mem _ hx)) (by omega) hinv1
        (hQ st c st1 hinv hq hb)
    refine ⟨st2, ?_, hinv2, hq2, ?_, ?_, ?_⟩
    · simp only [copy_loop, if_pos hcond, hb]
      exact hl2
    · simp only [copied, List.length_append]; omega
    · rw [ht2, ht1]; simp [copied]
    · simp only [copied, List.length_append]; omega

theorem helper2_dynamic (make_space : ast_str → Nat → Option ast_str)
    (hs : GrowSound make_space) (ha : GrowAlways make_space)
    (buf : ast_str) (src : List Nat) (maxsrc : Nat) (append escapecommas : Bool)
    (Q : CopyState → Prop)
    (hQ : ∀ st c st1, DynInv escapecommas st → Q st →
      copy_body make_space true escapecommas c st = .ok (false, st1) → Q st1)
    {p : Nat} (hp : p = if append = true then buf.__AST_STR_USED else 0)
    (hwf : buf.__AST_STR_STR.length = buf.__AST_STR_LEN)
    (hroom : p + passWidth escapecommas ≤ buf.__AST_STR_LEN)
    (hnz : ∀ c ∈ src, c ≠ 0) (hlen : src.length ≤ maxsrc)
    (hq : Q ⟨buf, p, (buf.__AST_STR_LEN : Int), []⟩) :
    ∃ r st1, __ast_str_helper2 make_space buf 0 src maxsrc append escapecommas = .ok r
      ∧ Q st1 ∧ st1.buf.__AST_STR_LEN = r.buf.__AST_STR_LEN ∧ st1.grows = r.grows
      ∧ st1.ptr = p + (copied escapecommas src).length
      ∧ r.buf.__AST_STR_STR.length = r.buf.__AST_STR_LEN
      ∧ p + (copied escapecommas src).length < r.buf.__AST_STR_LEN
      ∧ r.buf.__AST_STR_STR.take (p + (copied escapecommas src).length)
          = buf.__AST_STR_STR.take p ++ copied escapecommas src
      ∧ r.buf.__AST_STR_STR[p + (copied escapecommas src).length]? = some 0
      ∧ r.buf.__AST_STR_USED = buf.__AST_STR_USED + (copied escapecommas src).length := by
  have hpw : 1 ≤ passWidth escapecommas := by unfold passWidth; split <;> omega
  have hinv : DynInv escapecommas ⟨buf, p, (buf.__AST_STR_LEN : Int), []⟩ :=
    ⟨hwf, hroom, by simp only; omega⟩
  obtain ⟨st1, hl, ⟨hwf1, hptr1, hmax1⟩, hq1, hp1, ht1, hu1⟩ :=
    copy_loop_dynamic make_space hs ha escapecommas Q hQ src maxsrc _ hnz hlen hinv hq
  have hm0 : st1.maxlen ≠ 0 := by omega
  have hlt : st1.ptr < st1.buf.__AST_STR_STR.length := by omega
  simp only at hp1 ht1 hu1
  refine ⟨⟨{ st1.buf with __AST_STR_STR := st1.buf.__AST_STR_STR.set st1.ptr 0 }, st1.grows⟩,
    st1, ?_, hq1, rfl, rfl, hp1, by simpa using hwf1, ?_, ?_, ?_, hu1⟩
  · simp only [__ast_str_helper2, decide_True, ← hp, show ((0 : Int) < 1) from by decide,
      if_true, hl, hm0, false_and, if_false, poke_of_lt 0 hlt]
  · simp only; omega
  · simp only
    rw [← hp1, take_set_of_le _ _ (le_refl _)]
    exact ht1
  · simp only
    rw [← hp1, List.getElem?_set_self hlt]

theorem helper2_text_of_take (r : CopyRun) {n : Nat} {t : List Nat}
    (hlen : n < r.buf.__AST_STR_STR.length)
    (htake : r.buf.__AST_STR_STR.take n = t) (hz : r.buf.__AST_STR_STR[n]? = some 0)
    (hnz : ∀ c ∈ t, c ≠ 0) : r.text = t := by
  unfold CopyRun.text cstr
  have hsplit : r.buf.__AST_STR_STR = t ++ 0 :: r.buf.__AST_STR_STR.drop (n + 1) := by
    have h0 : r.buf.__AST_STR_STR[n] = 0 := by
      rw [List.getElem?_eq_getElem hlen] at hz
      exact Option.some.inj hz
    rw [← htake, ← h0]
    exact (List.take_append_drop n _).symm.trans (by rw [List.drop_eq_getElem_cons hlen])
  rw [hsplit, List.takeWhile_append_of_pos (by simpa using hnz)]
  simp

theorem copied_true (src : List Nat) : copied true src = escapedText src := by
  induction src with
  | nil => rfl
  | cons c cs ih => simp [copied, escapedText, emit, ih]

theorem copied_false (src : List Nat) : copied false src = src := by
  induction src with
  | nil => rfl
  | cons c cs ih => simp [copied, emit, ih]

theorem copied_ne_zero (escapecommas : Bool) (src : List Nat) (hnz : ∀ c ∈ src, c ≠ 0) :
    ∀ c ∈ copied escapecommas src, c ≠ 0 := by
  induction src with
  | nil => intro c hc; simp [copied] at hc
  | cons a cs ih =>
    intro c hc
    simp only [copied, List.mem_append] at hc
    rcases hc with hc | hc
    · have ha : a ≠ 0 := hnz a (List.mem_cons_self _ _)
      unfold emit at hc
      split at hc
      · simp only [List.mem_cons, List.mem_singleton, List.not_mem_nil, or_false] at hc
        rcases hc with rfl | rfl
        · decide
        · exact ha
      · simp only [List.mem_singleton] at hc
        rw [hc]; exact ha
    · exact ih (fun x hx => hnz x (List.mem_cons_of_mem _ hx)) c hc

theorem growTrace_succ (k : Nat) :
    growTrace (k + 1) = growTrace k ++ [(8 * 2 ^ k, 8 * 2 ^ k * 2)] := by
  simp [growTrace, List.range_succ]

theorem doublingInv_step (make_space : ast_str → Nat → Option ast_str)
    (hs : GrowSound make_space) (ha : GrowAlways make_space) (hexact : GrowExact make_space)
    (st : CopyState) (c : Nat) (st1 : CopyState)
    (hinv : DynInv false st) (hq : DoublingInv st)
    (hb : copy_body make_space true false c st = .ok (false, st1)) : DoublingInv st1 := by
  obtain ⟨st2, hb2, _, hp, _, _, hcase⟩ := copy_body_dynamic make_space hs ha false c st hinv
  rw [hb] at hb2
  have heq : st1 = st2 := by
    injection hb2 with h
    exact (Prod.mk.inj h).2
  subst heq
  have he : (emit false c).length = 1 := by simp [emit]
  rw [he] at hp hcase
  obtain ⟨hB, k, hk, hlenk, hbound⟩ := hq
  obtain ⟨_, hptr, _⟩ := hinv
  rcases hcase with ⟨_, hlen1, hmax1, hg1⟩ | ⟨htrig, ⟨b, hbl, hgb⟩, _, hmax1, hg1⟩
  · refine ⟨by rw [hlen1, hmax1, hp]; push_cast; omega, k, by rw [hg1, hk], by rw [hlen1, hlenk], ?_⟩
    rcases hbound with h | h
    · exact Or.inl h
    · right; rw [hlen1, hp]; omega
  · have hpos : 0 < st.buf.__AST_STR_LEN := by
      have : 0 < 2 ^ k := Nat.pow_pos (by decide)
      omega
    have hlen1 : st1.buf.__AST_STR_LEN = st.buf.__AST_STR_LEN * 2 :=
      hexact _ _ _ hgb (by omega)
    have hnear : st.buf.__AST_STR_LEN ≤ st.ptr + 1 + 3 := by
      rcases htrig with h | h | h
      · exact h
      · push_cast at h; omega
      · exact absurd h.1 (by decide)
    refine ⟨by rw [hlen1, hmax1, hp]; push_cast; omega, k + 1, ?_, ?_, ?_⟩
    · rw [hg1, hk, growTrace_succ, hlenk]
    · rw [hlen1, hlenk, pow_succ]; ring
    · right; rw [hlen1, hp]; omega

theorem copy_loop_fixed (make_space : ast_str → Nat → Option ast_str) :
    ∀ (src : List Nat) (maxsrc : Nat) (st : CopyState) (m : Nat),
      (∀ c ∈ src, c ≠ 0) → src.length ≤ maxsrc →
      st.buf.__AST_STR_STR.length = st.buf.__AST_STR_LEN →
      st.maxlen = (m : Int) → st.ptr + m + 3 < st.buf.__AST_STR_LEN →
      ∃ st1, copy_loop make_space false false src maxsrc st = .ok st1
        ∧ st1.buf.__AST_STR_STR.length = st1.buf.__AST_STR_LEN
        ∧ st1.buf.__AST_STR_LEN = st.buf.__AST_STR_LEN
        ∧ st1.grows = st.grows
        ∧ st1.ptr = st.ptr + min src.length m
        ∧ st1.maxlen = ((m - min src.length m : Nat) : Int)
        ∧ st1.buf.__AST_STR_STR.take st1.ptr = st.buf.__AST_STR_STR.take st.ptr ++ src.take m := by
  intro src
  induction src with
  | nil =>
    intro maxsrc st m _ _ hwf hm _
    exact ⟨st, rfl, hwf, rfl, rfl, by simp, by simpa using hm, by simp⟩
  | cons c src ih =>
    intro maxsrc st m hnz hlen hwf hm hroom
    simp only [List.length_cons] at hlen
    by_cases hm0 : m = 0
    · subst hm0
      refine ⟨st, ?_, hwf, rfl, rfl, by simp, by simpa using hm, by simp⟩
      simp [copy_loop, hm]
    · have hc : c ≠ 0 := hnz c (List.mem_cons_self _ _)
      have hcond : c ≠ 0 ∧ maxsrc ≠ 0 ∧ st.maxlen ≠ 0 ∧ (false = false ∨ st.maxlen - 1 ≠ 0) :=
        ⟨hc, by omega, by omega, Or.inl rfl⟩
      have he : emit false c = [c] := by simp [emit]
      have hbody := copy_body_eq make_space false false c st (by rw [he]; simp; omega)
      obtain ⟨hlen1, htake1⟩ := afterStores_facts false c st hwf (by rw [he]; simp; omega)
      rw [he] at htake1
      simp only [List.length_cons, List.length_nil, Nat.zero_add] at htake1
      have hnogrow : ¬ ((afterStores false c st).buf.__AST_STR_LEN ≤ (afterStores false c st).ptr + 3
          ∨ (false = true ∧ ((afterStores false c st).maxlen = 0
              ∨ (false = true ∧ (afterStores false c st).maxlen - 1 = 0)))) := by
        simp only [afterStores, he, List.length_cons, List.length_nil]
        simp
        omega
      rw [if_neg hnogrow] at hbody
      obtain ⟨st2, hl2, hwf2, hlen2, hg2, hp2, hmax2, ht2⟩ :=
        ih (maxsrc - 1) (afterStores false c st) (m - 1)
          (fun x hx => hnz x (List.mem_cons_of_mem _ hx)) (by omega)
          (by simpa [afterStores] using hlen1)
          (by simp only [afterStores, he, hm, List.length_cons, List.length_nil]; omega)
          (by simp only [afterStores, he, List.length_cons, List.length_nil]; omega)
      have hptr1 : (afterStores false c st).ptr = st.ptr + 1 := by simp [afterStores, he]
      refine ⟨st2, ?_, hwf2, ?_, ?_, ?_, ?_, ?_⟩
      · simp only [copy_loop, hbody]
        rw [if_pos ⟨hcond.1, hcond.2.1, hcond.2.2.1, Or.inl trivial⟩]
        exact hl2
      · rw [hlen2]; rfl
      · rw [hg2]; rfl
      · rw [hp2, hptr1]; simp only [List.length_cons]; omega
      · rw [hmax2]; simp only [List.length_cons]; congr 1; omega
      · rw [ht2, hptr1, htake1]
        obtain ⟨j, rfl⟩ : ∃ j, m = j + 1 := ⟨m - 1, by omega⟩
        simp

theorem split_at_zero {s : List Nat} {n : Nat} (h : s[n]? = some 0) :
    s = s.take n ++ 0 :: s.drop (n + 1) := by
  have hlt : n < s.length := by
    by_contra hge
    rw [List.getElem?_eq_none (by omega)] at h
    exact Option.noConfusion h
  have h0 : s[n] = 0 := by
    rw [List.getElem?_eq_getElem hlt] at h
    exact Option.some.inj h
  rw [← h0]
  exact (List.take_append_drop n _).symm.trans (by rw [List.drop_eq_getElem_cons hlt])

theorem cstr_append_zero (a b : List Nat) : cstr (a ++ 0 :: b) = cstr a := by
  induction a with
  | nil => simp [cstr]
  | cons x a ih =>
    unfold cstr at ih ⊢
    simp only [List.cons_append, List.takeWhile_cons]
    split
    · rw [ih]
    · rfl

theorem cstr_eq_of_take {s1 s2 : List Nat} {n : Nat} (h : s1.take n = s2.take n)
    (h1 : s1[n]? = some 0) (h2 : s2[n]? = some 0) : cstr s1 = cstr s2 := by
  rw [split_at_zero h1, split_at_zero h2, cstr_append_zero, cstr_append_zero, h]

theorem to_int_eq {z : Int} (h0 : 0 ≤ z) (h1 : z ≤ 2147483647) : to_int z = z := by
  unfold to_int; omega

theorem to_size_t_cast (n : Nat) (h : n ≤ 2147483647) : to_size_t (n : Int) = n := by
  unfold to_size_t; omega

theorem to_int_need (o n : Nat) (h : o + n + 1 ≤ 2147483647) :
    to_int ((o : Int) + (n : Int) + 1) = ((o + n + 1 : Nat) : Int) := by
  rw [to_int_eq (by omega) (by omega)]; push_cast; rfl

theorem fmtUsed_eq (cap o n : Nat) (h : o + n ≤ 2147483647) :
    fmtUsed cap (o : Int) (n : Int) = if cap ≤ o + n then cap - 1 else o + n := by
  unfold fmtUsed
  have e : to_size_t (to_int ((o : Int) + (n : Int))) = o + n := by
    rw [to_int_eq (by omega) (by omega)]
    have := to_size_t_cast (o + n) h
    push_cast at this
    exact this
  rw [e]

theorem fmtUsed_lt (cap : Nat) (off added : Int) (h : 1 ≤ cap) : fmtUsed cap off added < cap := by
  unfold fmtUsed
  split <;> omega

theorem growRequest_zero (need : Nat) (h : need + (16 + need / 4) ≤ 2147483647) :
    growRequest 0 (need : Int) = need + (16 + need / 4) := by
  unfold growRequest
  rw [if_pos rfl, Int.tdiv_eq_ediv (by omega) (by omega), to_int_eq (by omega) (by omega)]
  have := to_size_t_cast (need + (16 + need / 4)) h
  push_cast at this
  exact this

theorem growRequest_cap (N : Int) (need : Nat) (hN : 0 < N) (h : need ≤ 2147483647) :
    growRequest N (need : Int) = if N < (need : Int) then N.toNat else need := by
  unfold growRequest
  rw [if_neg (by omega)]
  split
  · rw [to_int_eq (by omega) (by omega)]
    unfold to_size_t; omega
  · exact to_size_t_cast need h

theorem growRequest_ge (ml : Int) (need len : Nat) (hml : 0 ≤ ml) (h1 : need ≤ 2147483647)
    (h : ¬ (need ≤ len ∨ (ml ≠ 0 ∧ ml ≤ (len : Int)))) :
    len < growRequest ml (need : Int)
      ∧ (need ≤ growRequest ml (need : Int)
          ∨ (ml ≠ 0 ∧ ml ≤ ((growRequest ml (need : Int) : Nat) : Int))) := by
  by_cases h0 : ml = 0
  · subst h0
    by_cases hw : need + (16 + need / 4) ≤ 2147483647
    · rw [growRequest_zero need hw]
      omega
    · unfold growRequest
      rw [if_pos rfl, Int.tdiv_eq_ediv (by omega) (by omega)]
      have e1 : to_int ((need : Int) + (16 + (need : Int) / 4))
          = (need : Int) + (16 + (need : Int) / 4) - 4294967296 := by
        unfold to_int; omega
      have e2 : to_size_t ((need : Int) + (16 + (need : Int) / 4) - 4294967296)
          = ((need : Int) + (16 + (need : Int) / 4) - 4294967296
              + 18446744073709551616).toNat := by
        unfold to_size_t; omega
      rw [e1, e2]
      omega
  · rw [growRequest_cap ml need (by omega) h1]
    split <;> omega

theorem vsnprintf_text {s : List Nat} {off : Nat} (t : List Nat) (h : off < s.length) :
    vsnprintf s off (s.length - off) (.text t)
      = some (fmtStore s off t, fmtRes (.text t)) := by
  have h0 : s.length - off ≠ 0 := by omega
  simp only [vsnprintf, if_neg h0, fmtRes, fmtStore]
  rw [pokes_closed _ s off (by simp [List.length_take]; omega)]
  simp [List.length_take]

theorem fmtRes_text (t : List Nat) (h : t.length ≤ 2147483647) :
    fmtRes (.text t) = (t.length : Int) := by
  simp only [fmtRes, INT_MAX]
  rw [if_pos (by omega)]

theorem fmtRes_text_over (t : List Nat) (h : 2147483647 < t.length) :
    fmtRes (.text t) = -1 := by
  simp only [fmtRes, INT_MAX]
  rw [if_neg (by omega)]

theorem vsnprintf_error {s : List Nat} {off : Nat} (j : List Nat) (h : off ≤ s.length) :
    vsnprintf s off (s.length - off) (.error j)
      = some (s.take off ++ j.take (s.length - off)
                ++ s.drop (off + min (s.length - off) j.length), -1) := by
  simp only [vsnprintf]
  rw [pokes_closed _ s off (by simp [List.length_take]; omega)]
  simp [List.length_take]

theorem vsnprintf_frame (fmt : FmtOutcome) {s : List Nat} {off : Nat} (h : off ≤ s.length) :
    ∃ s1, vsnprintf s off (s.length - off) fmt = some (s1, fmtRes fmt)
      ∧ s1.length = s.length ∧ s1.take off = s.take off := by
  cases fmt with
  | text t =>
    rcases Nat.lt_or_ge off s.length with hlt | hge
    · exact ⟨_, vsnprintf_text t hlt, fmtStore_length s t hlt, fmtStore_take s t hlt⟩
    · have : s.length - off = 0 := by omega
      refine ⟨s, by simp [vsnprintf, this, fmtRes], rfl, rfl⟩
  | error j =>
    refine ⟨_, vsnprintf_error j h, ?_, ?_⟩
    · simp [List.length_take]; omega
    · rw [List.append_assoc, List.take_append_of_le_length (by simp [List.length_take]; omega)]
      simp [List.take_take]

theorem fmt_loop_error (make_space : ast_str → Nat → Option ast_str) (fmt : FmtOutcome)
    (max_len : Int) (o fuel : Nat) (buf : ast_str) (grows : List (Nat × Nat)) (probes : Nat)
    {s : List Nat} {res : Int} (ho : o ≤ buf.__AST_STR_LEN)
    (hv : vsnprintf buf.__AST_STR_STR o (buf.__AST_STR_LEN - o) fmt = some (s, res))
    (hres : res < 0) :
    fmt_loop make_space fmt max_len (o : Int) (fuel + 1) buf grows probes
      = .ok ⟨{ buf with __AST_STR_STR := s }, AST_DYNSTR_BUILD_FAILED, 0, grows, probes + 1⟩ := by
  have hin : ¬ ((o : Int) < 0 ∨ (buf.__AST_STR_LEN : Int) < (o : Int)) := by omega
  simp only [fmt_loop, if_neg hin, Int.toNat_ofNat, hv, if_pos hres]

theorem fmt_loop_fits (make_space : ast_str → Nat → Option ast_str) (fmt : FmtOutcome)
    (max_len : Int) (o fuel : Nat) (buf : ast_str) (grows : List (Nat × Nat)) (probes : Nat)
    {s : List Nat} {res : Int} (ho : o ≤ buf.__AST_STR_LEN)
    (hv : vsnprintf buf.__AST_STR_STR o (buf.__AST_STR_LEN - o) fmt = some (s, res))
    (hres : 0 ≤ res)
    (hfit : to_size_t (to_int ((o : Int) + res + 1)) ≤ buf.__AST_STR_LEN
      ∨ (max_len ≠ 0 ∧ max_len ≤ (buf.__AST_STR_LEN : Int))) :
    fmt_loop make_space fmt max_len (o : Int) (fuel + 1) buf grows probes
      = .ok ⟨{ buf with __AST_STR_STR := s }, res, res, grows, probes + 1⟩ := by
  have hin : ¬ ((o : Int) < 0 ∨ (buf.__AST_STR_LEN : Int) < (o : Int)) := by omega
  simp only [fmt_loop, if_neg hin, Int.toNat_ofNat, hv, if_neg (Int.not_lt.mpr hres), if_pos hfit]

theorem fmt_loop_grow (make_space : ast_str → Nat → Option ast_str) (fmt : FmtOutcome)
    (max_len : Int) (o fuel : Nat) (buf : ast_str) (grows : List (Nat × Nat)) (probes : Nat)
    {s : List Nat} {res : Int} (ho : o ≤ buf.__AST_STR_LEN)
    (hv : vsnprintf buf.__AST_STR_STR o (buf.__AST_STR_LEN - o) fmt = some (s, res))
    (hres : 0 ≤ res)
    (hfit : ¬ (to_size_t (to_int ((o : Int) + res + 1)) ≤ buf.__AST_STR_LEN
      ∨ (max_len ≠ 0 ∧ max_len ≤ (buf.__AST_STR_LEN : Int)))) :
    fmt_loop make_space fmt max_len (o : Int) (fuel + 1) buf grows probes
      = match make_space { buf with __AST_STR_STR := s }
            (growRequest max_len (to_int ((o : Int) + res + 1))) with
        | none => .ok ⟨{ buf with __AST_STR_STR := s }, AST_DYNSTR_BUILD_FAILED, res,
            grows ++ [(buf.__AST_STR_LEN, growRequest max_len (to_int ((o : Int) + res + 1)))],
            probes + 1⟩
        | some buf2 => fmt_loop make_space fmt max_len (o : Int) fuel buf2
            (grows ++ [(buf.__AST_STR_LEN, growRequest max_len (to_int ((o : Int) + res + 1)))])
            (probes + 1) := by
  have hin : ¬ ((o : Int) < 0 ∨ (buf.__AST_STR_LEN : Int) < (o : Int)) := by omega
  simp only [fmt_loop, if_neg hin, Int.toNat_ofNat, hv, if_neg (Int.not_lt.mpr hres), if_neg hfit]
  rfl

theorem helper_of_loop {make_space : ast_str → Nat → Option ast_str} {fuel : Nat}
    {buf : ast_str} {max_len : Int} {append : Bool} {fmt : FmtOutcome} {x : FmtExit}
    {o : Nat} {ml : Int} {u : Nat}
    (hoff : (if append = true ∧ buf.__AST_STR_LEN ≠ 0 then to_int (buf.__AST_STR_USED : Int)
        else 0) = (o : Int))
    (hml : (if max_len < 0 then (buf.__AST_STR_LEN : Int) else max_len) = ml)
    (hl : fmt_loop make_space fmt ml (o : Int) fuel buf [] 0 = .ok x)
    (hwf : x.buf.__AST_STR_STR.length = x.buf.__AST_STR_LEN) (h1 : 1 ≤ x.buf.__AST_STR_LEN)
    (hu : u = fmtUsed x.buf.__AST_STR_LEN (o : Int) x.added) :
    __ast_str_helper make_space fuel buf max_len append fmt
      = .ok ⟨{ x.buf with __AST_STR_USED := u, __AST_STR_STR := x.buf.__AST_STR_STR.set u 0 },
          x.res, x.grows, x.probes⟩ := by
  have hlt : u < x.buf.__AST_STR_STR.length := by
    rw [hu, hwf]
    exact fmtUsed_lt _ _ _ h1
  have h0 : ¬ x.buf.__AST_STR_LEN = 0 := by omega
  unfold fmtUsed at hu
  simp only [__ast_str_helper, hoff, hml, hl, if_neg h0, ← hu, poke_of_lt 0 hlt]

theorem start_offset {buf : ast_str} (append : Bool) (h : buf.__AST_STR_USED < buf.__AST_STR_LEN)
    (hint : append = true → buf.__AST_STR_USED ≤ 2147483647) :
    (if append = true ∧ buf.__AST_STR_LEN ≠ 0 then to_int (buf.__AST_STR_USED : Int) else 0)
      = ((if append = true then buf.__AST_STR_USED else 0 : Nat) : Int) := by
  have : buf.__AST_STR_LEN ≠ 0 := by omega
  by_cases ha : append = true
  · simp only [ha, this, ne_eq, not_false_eq_true, and_self, if_true]
    exact to_int_eq (by omega) (by have := hint ha; omega)
  · simp [ha]

theorem poke_eq_some {s s1 : List Nat} {i c : Nat} (h : poke s i c = some s1) :
    i < s.length ∧ s1 = s.set i c := by
  unfold poke at h
  split at h
  · exact ⟨by assumption, by simpa using h.symm⟩
  · simp at h

theorem pokes_length (cs : List Nat) : ∀ (s s1 : List Nat) (i : Nat),
    pokes s i cs = some s1 → s1.length = s.length := by
  induction cs with
  | nil => intro s s1 i h; simp only [pokes, Option.some.injEq] at h; rw [← h]
  | cons c cs ih =>
    intro s s1 i h
    simp only [pokes] at h
    cases hp : poke s i c with
    | none => rw [hp] at h; simp at h
    | some s2 =>
      rw [hp] at h
      have := ih s2 s1 (i + 1) h
      rw [this, (poke_eq_some hp).2, List.length_set]

theorem vsnprintf_length {s s1 : List Nat} {off size : Nat} {fmt : FmtOutcome} {res : Int}
    (h : vsnprintf s off size fmt = some (s1, res)) : s1.length = s.length := by
  cases fmt with
  | text t =>
    simp only [vsnprintf] at h
    split at h
    · simp only [Option.some.injEq, Prod.mk.injEq] at h; rw [← h.1]
    · cases hp : pokes s off (List.take (size - 1) t ++ [0]) with
      | none => rw [hp] at h; simp at h
      | some s2 =>
        rw [hp] at h
        simp only [Option.map_some', Option.some.injEq, Prod.mk.injEq] at h
        rw [← h.1]; exact pokes_length _ _ _ _ hp
  | error j =>
    simp only [vsnprintf] at h
    cases hp : pokes s off (List.take size j) with
    | none => rw [hp] at h; simp at h
    | some s2 =>
      rw [hp] at h
      simp only [Option.map_some', Option.some.injEq, Prod.mk.injEq] at h
      rw [← h.1]; exact pokes_length _ _ _ _ hp

theorem fmt_loop_wf (make_space : ast_str → Nat → Option ast_str) (hs : GrowSound make_space)
    (fmt : FmtOutcome) (ml offset : Int) :
    ∀ (fuel : Nat) (buf : ast_str) (gr : List (Nat × Nat)) (p : Nat) (x : FmtExit),
      buf.__AST_STR_STR.length = buf.__AST_STR_LEN →
      fmt_loop make_space fmt ml offset fuel buf gr p = .ok x →
      x.buf.__AST_STR_STR.length = x.buf.__AST_STR_LEN := by
  intro fuel
  induction fuel with
  | zero => intro buf gr p x _ h; simp [fmt_loop] at h
  | succ k ih =>
    intro buf gr p x hwf h
    simp only [fmt_loop] at h
    split at h
    · simp at h
    · split at h
      · simp at h
      · rename_i s res hv
        have hlen : s.length = buf.__AST_STR_LEN := (vsnprintf_length hv).trans hwf
        split at h
        · simp only [Except.ok.injEq] at h; rw [← h]; exact hlen
        · split at h
          · simp only [Except.ok.injEq] at h; rw [← h]; exact hlen
          · split at h
            · simp only [Except.ok.injEq] at h; rw [← h]; exact hlen
            · rename_i buf2 hg
              obtain ⟨_, _, hwf2, _⟩ := hs _ _ _ (by simpa using hlen) hg
              exact ih buf2 _ _ x hwf2 h

theorem fmt_loop_text (make_space : ast_str → Nat → Option ast_str) (hs : GrowSound make_space)
    (ml : Int) (k : Nat) (buf : ast_str) (t : List Nat) (gr : List (Nat × Nat)) (p : Nat)
    {o : Nat}
    (hwf : buf.__AST_STR_STR.length = buf.__AST_STR_LEN) (ho : o < buf.__AST_STR_LEN)
    (hn : o + t.length + 1 ≤ 2147483647) (hml : 0 ≤ ml) :
    fmt_loop make_space (.text t) ml (o : Int) (k + 2) buf gr p =
      if o + t.length + 1 ≤ buf.__AST_STR_LEN ∨ (ml ≠ 0 ∧ ml ≤ (buf.__AST_STR_LEN : Int)) then
        .ok ⟨{ buf with __AST_STR_STR := fmtStore buf.__AST_STR_STR o t },
          (t.length : Int), (t.length : Int), gr, p + 1⟩
      else
        match make_space { buf with __AST_STR_STR := fmtStore buf.__AST_STR_STR o t }
            (growRequest ml ((o + t.length + 1 : Nat) : Int)) with
        | none => .ok ⟨{ buf with __AST_STR_STR := fmtStore buf.__AST_STR_STR o t },
            AST_DYNSTR_BUILD_FAILED, (t.length : Int),
            gr ++ [(buf.__AST_STR_LEN, growRequest ml ((o + t.length + 1 : Nat) : Int))], p + 1⟩
        | some buf2 => .ok ⟨{ buf2 with __AST_STR_STR := fmtStore buf2.__AST_STR_STR o t },
            (t.length : Int), (t.length : Int),
            gr ++ [(buf.__AST_STR_LEN, growRequest ml ((o + t.length + 1 : Nat) : Int))],
            p + 2⟩ := by
  have hres : fmtRes (.text t) = (t.length : Int) := fmtRes_text t (by omega)
  have hv : vsnprintf buf.__AST_STR_STR o (buf.__AST_STR_LEN - o) (.text t)
      = some (fmtStore buf.__AST_STR_STR o t, (t.length : Int)) := by
    rw [← hwf, ← hres]; exact vsnprintf_text t (hwf ▸ ho)
  have hneed := to_int_need o t.length hn
  have hsz := to_size_t_cast (o + t.length + 1) hn
  have hpos : (0 : Int) ≤ (t.length : Int) := Int.ofNat_nonneg _
  by_cases hfit : o + t.length + 1 ≤ buf.__AST_STR_LEN ∨ (ml ≠ 0 ∧ ml ≤ (buf.__AST_STR_LEN : Int))
  · rw [if_pos hfit]
    exact fmt_loop_fits make_space _ ml o (k + 1) buf gr p (Nat.le_of_lt ho) hv hpos
      (by rw [hneed, hsz]; exact hfit)
  · rw [if_neg hfit]
    rw [fmt_loop_grow make_space _ ml o (k + 1) buf gr p (Nat.le_of_lt ho) hv hpos
      (by rw [hneed, hsz]; exact hfit), hneed]
    cases hg : make_space { buf with __AST_STR_STR := fmtStore buf.__AST_STR_STR o t }
        (growRequest ml ((o + t.length + 1 : Nat) : Int)) with
    | none => rfl
    | some buf2 =>
      simp only
      obtain ⟨hreq, _, hwf2, _⟩ := hs _ _ _
        (by simpa using (fmtStore_length _ t (hwf ▸ ho)).trans hwf) hg
      obtain ⟨hlt, hge⟩ := growRequest_ge ml (o + t.length + 1) buf.__AST_STR_LEN hml hn hfit
      have ho2 : o < buf2.__AST_STR_LEN := by omega
      have hfit2 : o + t.length + 1 ≤ buf2.__AST_STR_LEN
          ∨ (ml ≠ 0 ∧ ml ≤ (buf2.__AST_STR_LEN : Int)) := by
        rcases hge with h | h
        · exact Or.inl (by omega)
        · exact Or.inr ⟨h.1, by omega⟩
      have hv2 : vsnprintf buf2.__AST_STR_STR o (buf2.__AST_STR_LEN - o) (.text t)
          = some (fmtStore buf2.__AST_STR_STR o t, (t.length : Int)) := by
        rw [← hwf2, ← hres]; exact vsnprintf_text t (hwf2 ▸ ho2)
      rw [fmt_loop_fits make_space _ ml o k buf2 _ _ (Nat.le_of_lt ho2) hv2 hpos
        (by rw [hneed, hsz]; exact hfit2)]

theorem fmt_loop_exit (make_space : ast_str → Nat → Option ast_str) (hs : GrowSound make_space)
    (fmt : FmtOutcome) (ml : Int) (k : Nat) (buf : ast_str) (gr : List (Nat × Nat)) (p : Nat)
    {o : Nat}
    (hwf : buf.__AST_STR_STR.length = buf.__AST_STR_LEN) (ho : o < buf.__AST_STR_LEN)
    (hml : 0 ≤ ml)
    (hsize : ∀ t, fmt = .text t → t.length ≤ 2147483647 → o + t.length + 1 ≤ 2147483647) :
    ∃ x, fmt_loop make_space fmt ml (o : Int) (k + 2) buf gr p = .ok x
      ∧ x.buf.__AST_STR_STR.length = x.buf.__AST_STR_LEN
      ∧ buf.__AST_STR_LEN ≤ x.buf.__AST_STR_LEN := by
  have hneg : ∀ fmt1 : FmtOutcome, fmtRes fmt1 < 0 →
      ∃ x, fmt_loop make_space fmt1 ml (o : Int) (k + 2) buf gr p = .ok x
        ∧ x.buf.__AST_STR_STR.length = x.buf.__AST_STR_LEN
        ∧ buf.__AST_STR_LEN ≤ x.buf.__AST_STR_LEN := by
    intro fmt1 hlt
    obtain ⟨s1, hv, hs1, _⟩ := vsnprintf_frame fmt1 (hwf ▸ Nat.le_of_lt ho)
    rw [hwf] at hv
    exact ⟨_, fmt_loop_error make_space _ ml o (k + 1) buf gr p (Nat.le_of_lt ho) hv hlt,
      by simpa using hs1.trans hwf, le_refl _⟩
  cases fmt with
  | error junk => exact hneg _ (by simp [fmtRes])
  | text t =>
    by_cases hbig : t.length ≤ 2147483647
    · have hn := hsize t rfl hbig
      have hlen := (fmtStore_length buf.__AST_STR_STR t (hwf ▸ ho)).trans hwf
      rw [fmt_loop_text make_space hs ml k buf t gr p hwf ho hn hml]
      split
      · exact ⟨_, rfl, hlen, le_refl _⟩
      · rename_i hfit
        cases hg : make_space { buf with __AST_STR_STR := fmtStore buf.__AST_STR_STR o t }
            (growRequest ml ((o + t.length + 1 : Nat) : Int)) with
        | none => exact ⟨_, rfl, hlen, le_refl _⟩
        | some buf2 =>
          obtain ⟨hreq, _, hwf2, _⟩ := hs _ _ _ (by simpa using hlen) hg
          obtain ⟨hpos, _⟩ := growRequest_ge ml (o + t.length + 1) buf.__AST_STR_LEN hml hn hfit
          refine ⟨_, rfl, ?_, ?_⟩
          · simp only
            rw [fmtStore_length _ t (by omega)]; exact hwf2
          · simp only; omega
    · exact hneg _ (by rw [fmtRes_text_over t (by omega)]; decide)

theorem start_le {buf : ast_str} {append : Bool} {o : Nat}
    (hstart : (if append = true ∧ buf.__AST_STR_LEN ≠ 0 then to_int (buf.__AST_STR_USED : Int)
        else 0) = (o : Int)) : o ≤ 2147483647 := by
  split at hstart
  · unfold to_int at hstart; omega
  · omega

theorem helper_text (make_space : ast_str → Nat → Option ast_str) (hs : GrowSound make_space)
    (k : Nat) (buf : ast_str) (max_len : Int) (append : Bool) (t : List Nat) {o : Nat} {m : Int}
    (hwf : buf.__AST_STR_STR.length = buf.__AST_STR_LEN)
    (hstart : (if append = true ∧ buf.__AST_STR_LEN ≠ 0 then to_int (buf.__AST_STR_USED : Int)
        else 0) = (o : Int))
    (ho : o < buf.__AST_STR_LEN)
    (hml : m = if max_len < 0 then (buf.__AST_STR_LEN : Int) else max_len)
    (hn : o + t.length + 1 ≤ 2147483647) :
    __ast_str_helper make_space (k + 2) buf max_len append (.text t) =
      if o + t.length + 1 ≤ buf.__AST_STR_LEN ∨ (m ≠ 0 ∧ m ≤ (buf.__AST_STR_LEN : Int)) then
        .ok ⟨fmtFinish buf o t, (t.length : Int), [], 1⟩
      else
        match make_space { buf with __AST_STR_STR := fmtStore buf.__AST_STR_STR o t }
            (growRequest m ((o + t.length + 1 : Nat) : Int)) with
        | none => .ok ⟨fmtFinish buf o t, AST_DYNSTR_BUILD_FAILED,
            [(buf.__AST_STR_LEN, growRequest m ((o + t.length + 1 : Nat) : Int))], 1⟩
        | some buf2 => .ok ⟨fmtFinish buf2 o t, (t.length : Int),
            [(buf.__AST_STR_LEN, growRequest m ((o + t.length + 1 : Nat) : Int))], 2⟩ := by
  have hm0 : 0 ≤ m := by rw [hml]; split <;> omega
  have hlen := (fmtStore_length buf.__AST_STR_STR t (hwf ▸ ho)).trans hwf
  have hl := fmt_loop_text make_space hs m k buf t [] 0 hwf ho hn hm0
  split
  · rename_i hfit
    rw [if_pos hfit] at hl
    exact helper_of_loop hstart hml.symm hl (by simpa using hlen) (by simp; omega) rfl
  · rename_i hfit
    rw [if_neg hfit] at hl
    cases hg : make_space { buf with __AST_STR_STR := fmtStore buf.__AST_STR_STR o t }
        (growRequest m ((o + t.length + 1 : Nat) : Int)) with
    | none =>
      rw [hg] at hl
      exact helper_of_loop hstart hml.symm hl (by simpa using hlen) (by simp; omega) rfl
    | some buf2 =>
      rw [hg] at hl
      obtain ⟨hreq, _, hwf2, _⟩ := hs _ _ _ (by simpa using hlen) hg
      obtain ⟨hpos, _⟩ := growRequest_ge m (o + t.length + 1) buf.__AST_STR_LEN hm0 hn hfit
      exact helper_of_loop hstart hml.symm hl
        (by simp only; rw [fmtStore_length _ t (by omega)]; exact hwf2) (by simp only; omega) rfl

theorem helper_failed (make_space : ast_str → Nat → Option ast_str)
    (k : Nat) (buf : ast_str) (max_len : Int) (append : Bool) (fmt : FmtOutcome) {o : Nat}
    (hwf : buf.__AST_STR_STR.length = buf.__AST_STR_LEN)
    (hstart : (if append = true ∧ buf.__AST_STR_LEN ≠ 0 then to_int (buf.__AST_STR_USED : Int)
        else 0) = (o : Int))
    (ho : o < buf.__AST_STR_LEN)
    (hneg : fmtRes fmt < 0) :
    ∃ r, __ast_str_helper make_space (k + 1) buf max_len append fmt = .ok r
      ∧ r.res = AST_DYNSTR_BUILD_FAILED
      ∧ r.grows = [] ∧ r.probes = 1
      ∧ r.buf.__AST_STR_LEN = buf.__AST_STR_LEN
      ∧ r.buf.__AST_STR_STR.length = buf.__AST_STR_LEN
      ∧ r.buf.__AST_STR_USED = o
      ∧ r.buf.__AST_STR_STR[o]? = some 0
      ∧ r.buf.__AST_STR_STR.take o = buf.__AST_STR_STR.take o := by
  have ho31 := start_le hstart
  obtain ⟨s1, hv, hs1, htake⟩ := vsnprintf_frame fmt (hwf ▸ Nat.le_of_lt ho)
  rw [hwf] at hv
  have hl := fmt_loop_error make_space fmt
    (if max_len < 0 then (buf.__AST_STR_LEN : Int) else max_len)
    o k buf [] 0 (Nat.le_of_lt ho) hv hneg
  have hu : o = fmtUsed buf.__AST_STR_LEN (o : Int) 0 := by
    have := fmtUsed_eq buf.__AST_STR_LEN o 0 (by omega)
    simp only [Nat.cast_zero, Nat.add_zero] at this
    rw [this, if_neg (by omega)]
  refine ⟨_, helper_of_loop hstart rfl hl (by simpa using hs1.trans hwf) (by simp; omega) hu,
    rfl, rfl, rfl, rfl, ?_, rfl, ?_, ?_⟩
  · simpa using hs1.trans hwf
  · simp only
    rw [List.getElem?_set_self (by omega)]
  · simp only
    rw [take_set_of_le _ _ (le_refl _)]
    exact htake

theorem fmtFinish_trunc (b : ast_str) (t : List Nat) {o : Nat}
    (hwf : b.__AST_STR_STR.length = b.__AST_STR_LEN) (ho : o < b.__AST_STR_LEN)
    (h : b.__AST_STR_LEN ≤ o + t.length) (hn : o + t.length ≤ 2147483647) :
    (fmtFinish b o t).__AST_STR_USED = b.__AST_STR_LEN - 1
      ∧ (fmtFinish b o t).__AST_STR_STR.take (b.__AST_STR_LEN - 1)
          = b.__AST_STR_STR.take o ++ t.take (b.__AST_STR_LEN - 1 - o)
      ∧ (fmtFinish b o t).__AST_STR_STR[b.__AST_STR_LEN - 1]? = some 0 := by
  have hu : fmtUsed b.__AST_STR_LEN (o : Int) (t.length : Int) = b.__AST_STR_LEN - 1 := by
    rw [fmtUsed_eq _ _ _ hn, if_pos h]
  simp only [fmtFinish, hu]
  refine ⟨trivial, ?_, ?_⟩
  · rw [take_set_of_le _ _ (le_refl _), ← hwf, fmtStore_trunc _ _ (by omega) (by omega)]
  · rw [List.getElem?_set_self (by rw [fmtStore_length _ _ (by omega)]; omega)]

theorem hugeText_length : hugeText.length = 2147483648 := by
  show (List.replicate 2147483648 65).length = 2147483648
  rw [List.length_replicate]

theorem helper_grow_fails (make_space : ast_str → Nat → Option ast_str)
    (k : Nat) (buf : ast_str) (max_len : Int) (append : Bool) (t : List Nat) {o : Nat} {m : Int}
    (hfail : ∀ b n, make_space b n = none)
    (hwf : buf.__AST_STR_STR.length = buf.__AST_STR_LEN)
    (hstart : (if append = true ∧ buf.__AST_STR_LEN ≠ 0 then to_int (buf.__AST_STR_USED : Int)
        else 0) = (o : Int))
    (ho : o < buf.__AST_STR_LEN)
    (hml : (if max_len < 0 then (buf.__AST_STR_LEN : Int) else max_len) = m)
    (hn : t.length ≤ 2147483647)
    (hnofit : ¬ (to_size_t (to_int ((o : Int) + (t.length : Int) + 1)) ≤ buf.__AST_STR_LEN
      ∨ (m ≠ 0 ∧ m ≤ (buf.__AST_STR_LEN : Int)))) :
    __ast_str_helper make_space (k + 1) buf max_len append (.text t)
      = .ok ⟨fmtFinish buf o t, AST_DYNSTR_BUILD_FAILED,
          [(buf.__AST_STR_LEN, growRequest m (to_int ((o : Int) + (t.length : Int) + 1)))],
          1⟩ := by
  have hv : vsnprintf buf.__AST_STR_STR o (buf.__AST_STR_LEN - o) (.text t)
      = some (fmtStore buf.__AST_STR_STR o t, (t.length : Int)) := by
    rw [← hwf, ← fmtRes_text t hn]; exact vsnprintf_text t (hwf ▸ ho)
  have hlen := (fmtStore_length buf.__AST_STR_STR t (hwf ▸ ho)).trans hwf
  have hl := fmt_loop_grow make_space (.text t) m o k buf [] 0
    (Nat.le_of_lt ho) hv (Int.ofNat_nonneg _) hnofit
  rw [hfail] at hl
  exact helper_of_loop hstart hml hl (by simpa using hlen) (by simp; omega) rfl

/-- C1: for every buffer with `used` below its capacity (so the capacity is at
least 1), every `max_len` (zero, negative, positive), either mode, every
outcome of the format primitive and every `make_space` whose successes give a
capacity of at least the request and keep the bytes (its failures leave the
buffer as it was): whenever `__ast_str_helper` returns, `used` is below the
capacity and the byte at index `used` is the terminator; and it does return,
with two units of fuel, when the sizes it computes in `int` are in range
(`used` when appending, and the offset plus the rendered length plus one). -/
theorem helper_terminator_invariant (make_space : ast_str → Nat → Option ast_str)
    (fuel : Nat) (buf : ast_str) (max_len : Int) (append : Bool) (fmt : FmtOutcome)
    (hgrow : GrowSound make_space)
    (hwf : buf.__AST_STR_STR.length = buf.__AST_STR_LEN)
    (hused : buf.__AST_STR_USED < buf.__AST_STR_LEN) :
    (∀ r, __ast_str_helper make_space fuel buf max_len append fmt = .ok r →
        r.buf.__AST_STR_STR.length = r.buf.__AST_STR_LEN
          ∧ r.buf.__AST_STR_USED < r.buf.__AST_STR_LEN
          ∧ r.buf.__AST_STR_STR[r.buf.__AST_STR_USED]? = some 0)
      ∧ (2 ≤ fuel → (append = true → buf.__AST_STR_USED ≤ 2147483647) →
          (∀ t, fmt = .text t → t.length ≤ 2147483647 →
            (if append = true then buf.__AST_STR_USED else 0) + t.length + 1 ≤ 2147483647) →
          ∃ r, __ast_str_helper make_space fuel buf max_len append fmt = .ok r) := by
  constructor
  · intro r h
    simp only [__ast_str_helper] at h
    split at h
    · simp at h
    · rename_i x hl
      have hwfx := fmt_loop_wf make_space hgrow fmt _ _ fuel buf [] 0 x hwf hl
      split at h
      · simp at h
      · split at h
        · simp at h
        · rename_i s hp
          obtain ⟨hlt, hs⟩ := poke_eq_some hp
          simp only [Except.ok.injEq] at h
          rw [← h]
          simp only
          refine ⟨by rw [hs, List.length_set]; exact hwfx, by omega, ?_⟩
          rw [hs, List.getElem?_set_self hlt]
  · intro hfuel hint hsize
    obtain ⟨k, rfl⟩ : ∃ k, fuel = k + 2 := ⟨fuel - 2, by omega⟩
    have hstart := start_offset append hused hint
    have ho : (if append = true then buf.__AST_STR_USED else 0) < buf.__AST_STR_LEN := by
      split <;> omega
    generalize (if append = true then buf.__AST_STR_USED else 0) = o at hstart ho hsize
    have hml : (0 : Int) ≤ (if max_len < 0 then (buf.__AST_STR_LEN : Int) else max_len) := by
      split <;> omega
    obtain ⟨x, hl, hwfx, hle⟩ := fmt_loop_exit make_space hgrow fmt
      (if max_len < 0 then (buf.__AST_STR_LEN : Int) else max_len) k buf [] 0 hwf ho hml hsize
    exact ⟨_, helper_of_loop hstart rfl hl hwfx (by omega) rfl⟩

/-- Witness for C1: an append capped at 10 into the 16-byte buffer holding "ab"
returns and leaves the invariant. -/
theorem helper_terminator_invariant_witness :
    ∃ r, __ast_str_helper (growFill 0) 2 abBuf16 10 true (.text fiftyBytes) = .ok r
      ∧ r.buf.__AST_STR_STR.length = r.buf.__AST_STR_LEN
      ∧ r.buf.__AST_STR_USED < r.buf.__AST_STR_LEN
      ∧ r.buf.__AST_STR_STR[r.buf.__AST_STR_USED]? = some 0 := by
  obtain ⟨hinv, hret⟩ := helper_terminator_invariant (growFill 0) 2 abBuf16 10 true
    (.text fiftyBytes) (growFill_sound 0) (by decide) (by decide)
  obtain ⟨r, hr⟩ := hret (by decide) (fun _ => by decide)
    (fun t ht _ => by cases ht; decide)
  exact ⟨r, hr, hinv r hr⟩

/-- C2: the code at a failing input. Both buffers satisfy the data-model
invariants and `make_space` doubles on demand. A raw-copy set of "xyz" over
the 16-byte buffer holding "ab" returns "xyz" with the terminator at index 3,
but leaves `used` at 5, where the storage holds a byte that is not the
terminator; over a 16-byte buffer with 15 bytes used, a set of "xy" leaves
`used` at 17, above the capacity. -/
theorem helper2_used_not_terminator_index :
    Invariants abBuf16
      ∧ (∃ r, __ast_str_helper2 (growFill 7) abBuf16 0 [120, 121, 122] 3 false false = .ok r
          ∧ r.text = [120, 121, 122]
          ∧ r.buf.__AST_STR_LEN = 16
          ∧ r.buf.__AST_STR_STR[3]? = some 0
          ∧ r.buf.__AST_STR_USED = 5
          ∧ r.buf.__AST_STR_STR[r.buf.__AST_STR_USED]? = some 7)
      ∧ Invariants ⟨16, 15, List.replicate 15 65 ++ [0]⟩
      ∧ (∃ r, __ast_str_helper2 (growFill 7) ⟨16, 15, List.replicate 15 65 ++ [0]⟩ 0
            [120, 121] 2 false false = .ok r
          ∧ r.buf.__AST_STR_LEN = 16
          ∧ r.buf.__AST_STR_USED = 17) :=
  ⟨⟨by decide, by decide, by decide⟩,
    ⟨_, rfl, by decide, by decide, by decide, by decide, by decide⟩,
    ⟨by decide, by decide, by decide⟩,
    ⟨_, rfl, by decide, by decide⟩⟩

/-- Counterexample to C4 as stated. With capacity 16, hard cap 10, mode set and a
rendering of 50 bytes, `__ast_str_helper` returns 50 and leaves `used = 15`,
not `10 - 1`: a buffer already larger than the cap is truncated at its own
capacity. With capacity 4, hard cap 10 and a rendering of `2 ^ 31` bytes it
returns `AST_DYNSTR_BUILD_FAILED`, not the length of the rendering, and leaves
`used = 0`: the format primitive cannot report that length in an `int`. -/
theorem helper_hard_cap_counterexample :
    GrowSound (growFill 0) ∧ GrowAlways (growFill 0) ∧ GrowExact (growFill 0)
      ∧ abBuf16.__AST_STR_STR.length = abBuf16.__AST_STR_LEN
      ∧ abBuf16.__AST_STR_USED < abBuf16.__AST_STR_LEN
      ∧ 10 ≤ fiftyBytes.length
      ∧ (∃ r, __ast_str_helper (growFill 0) 2 abBuf16 10 false (.text fiftyBytes) = .ok r
          ∧ r.res = 50 ∧ r.buf.__AST_STR_LEN = 16 ∧ r.buf.__AST_STR_USED = 15
          ∧ r.buf.__AST_STR_USED ≠ 10 - 1)
      ∧ emptyBuf4.__AST_STR_STR.length = emptyBuf4.__AST_STR_LEN
      ∧ emptyBuf4.__AST_STR_USED < emptyBuf4.__AST_STR_LEN
      ∧ emptyBuf4.__AST_STR_LEN ≤ 10
      ∧ 10 ≤ hugeText.length
      ∧ ∃ r, __ast_str_helper (growFill 0) 2 emptyBuf4 10 false (.text hugeText) = .ok r
          ∧ r.res = AST_DYNSTR_BUILD_FAILED
          ∧ r.res ≠ (hugeText.length : Int)
          ∧ r.buf.__AST_STR_USED = 0
          ∧ r.buf.__AST_STR_USED ≠ 10 - 1 := by
  refine ⟨growFill_sound 0, growFill_always 0, growFill_exact 0, by decide, by decide,
    by decide, ⟨_, rfl, by decide, by decide, by decide, by decide⟩, by decide, by decide,
    by decide, by rw [hugeText_length]; decide, ?_⟩
  obtain ⟨r, hr, hres, _, _, _, _, hu, _, _⟩ :=
    helper_failed (growFill 0) 1 emptyBuf4 10 false (.text hugeText) (o := 0)
      (by decide) (by decide) (by decide)
      (by rw [fmtRes_text_over hugeText (by rw [hugeText_length]; decide)]; decide)
  refine ⟨r, hr, hres, ?_, hu, ?_⟩
  · rw [hres, hugeText_length]; decide
  · rw [hu]; decide

/-- C4 (amended): for every buffer with `used` below its capacity and capacity
at most the positive hard cap `N`, mode set, a rendering `t` of at least `N`
bytes whose length plus one is at most `INT_MAX`, and a `make_space` that
always succeeds and sets the capacity to exactly the request,
`__ast_str_helper` returns the length of `t` and leaves capacity `N`,
`used = N - 1` and the first `N - 1` bytes of `t` followed by the terminator. -/
theorem helper_hard_cap_truncates (make_space : ast_str → Nat → Option ast_str)
    (fuel : Nat) (buf : ast_str) (N : Nat) (t : List Nat)
    (hgrow : GrowSound make_space) (halways : GrowAlways make_space)
    (hexact : GrowExact make_space)
    (hfuel : 2 ≤ fuel)
    (hwf : buf.__AST_STR_STR.length = buf.__AST_STR_LEN)
    (hused : buf.__AST_STR_USED < buf.__AST_STR_LEN)
    (hN : 0 < N) (hcap : buf.__AST_STR_LEN ≤ N) (hn : N ≤ t.length)
    (hint : t.length + 1 ≤ 2147483647) :
    ∃ r, __ast_str_helper make_space fuel buf (N : Int) false (.text t) = .ok r
      ∧ r.res = (t.length : Int)
      ∧ r.buf.__AST_STR_LEN = N
      ∧ r.buf.__AST_STR_USED = N - 1
      ∧ r.buf.__AST_STR_STR.take (N - 1) = t.take (N - 1)
      ∧ r.buf.__AST_STR_STR[N - 1]? = some 0 := by
  obtain ⟨k, rfl⟩ : ∃ k, fuel = k + 2 := ⟨fuel - 2, by omega⟩
  have hh := helper_text make_space hgrow k buf (N : Int) false t (o := 0) (m := (N : Int)) hwf
    (by simp) (by omega) (by rw [if_neg]; omega) (by omega)
  by_cases hfit : 0 + t.length + 1 ≤ buf.__AST_STR_LEN
      ∨ ((N : Int) ≠ 0 ∧ (N : Int) ≤ (buf.__AST_STR_LEN : Int))
  · rw [if_pos hfit] at hh
    have hlenN : buf.__AST_STR_LEN = N := by omega
    obtain ⟨h1, h2, h3⟩ := fmtFinish_trunc buf t (o := 0) hwf (by omega) (by omega) (by omega)
    rw [hlenN] at h1 h2 h3
    refine ⟨_, hh, rfl, hlenN, h1, ?_, h3⟩
    simpa using h2
  · rw [if_neg hfit] at hh
    have hlen := (fmtStore_length buf.__AST_STR_STR t (o := 0) (by omega)).trans hwf
    have hreq : growRequest (N : Int) ((0 + t.length + 1 : Nat) : Int) = N := by
      rw [growRequest_cap (N : Int) _ (by omega) (by omega), if_pos (by omega)]
      simp
    rw [hreq] at hh
    obtain ⟨buf2, hg⟩ := halways { buf with __AST_STR_STR := fmtStore buf.__AST_STR_STR 0 t } N
    rw [hg] at hh
    obtain ⟨_, _, hwf2, _⟩ := hgrow _ _ _ (by simpa using hlen) hg
    have hlenN : buf2.__AST_STR_LEN = N := hexact _ _ _ hg (by simp only; omega)
    obtain ⟨h1, h2, h3⟩ := fmtFinish_trunc buf2 t (o := 0) hwf2 (by omega) (by omega) (by omega)
    rw [hlenN] at h1 h2 h3
    refine ⟨_, hh, rfl, hlenN, h1, ?_, h3⟩
    simpa using h2

/-- Witness for C4 (amended): capacity 4, hard cap 10 and a rendering of 50 bytes
give `used = 9` and the return value 50. -/
theorem helper_hard_cap_truncates_witness :
    ∃ r, __ast_str_helper (growFill 0) 2 emptyBuf4 10 false (.text fiftyBytes) = .ok r
      ∧ r.res = 50
      ∧ r.buf.__AST_STR_LEN = 10
      ∧ r.buf.__AST_STR_USED = 9
      ∧ r.buf.__AST_STR_STR.take 9 = fiftyBytes.take 9
      ∧ r.buf.__AST_STR_STR[9]? = some 0 :=
  helper_hard_cap_truncates (growFill 0) 2 emptyBuf4 10 fiftyBytes
    (growFill_sound 0) (growFill_always 0) (growFill_exact 0)
    (by decide) (by decide) (by decide) (by decide) (by decide) (by decide) (by decide)

/-- C5: for every buffer of capacity at least 2, mode set, `maxlen = 0`
(dynamic), escaping on, a `make_space` that always succeeds with at least the
doubled capacity, and every source of non-terminator bytes with
`maxsrc` at least its length, the text returned by `__ast_str_helper2` is the
escaped source: each backslash or comma preceded by a backslash, every other
byte alone. -/
theorem helper2_escapes (make_space : ast_str → Nat → Option ast_str)
    (buf : ast_str) (src : List Nat) (maxsrc : Nat)
    (hgrow : GrowSound make_space) (halways : GrowAlways make_space)
    (hwf : buf.__AST_STR_STR.length = buf.__AST_STR_LEN)
    (hcap : 2 ≤ buf.__AST_STR_LEN)
    (hnz : ∀ c ∈ src, c ≠ 0) (hlen : src.length ≤ maxsrc) :
    ∃ r, __ast_str_helper2 make_space buf 0 src maxsrc false true = .ok r
      ∧ r.text = escapedText src := by
  obtain ⟨r, _, hr, _, _, _, _, hwf1, hlt, htake, hz, _⟩ :=
    helper2_dynamic make_space hgrow halways buf src maxsrc false true (fun _ => True)
      (fun _ _ _ _ _ _ => trivial) (p := 0) (by simp) hwf (by simpa [passWidth] using hcap)
      hnz hlen trivial
  refine ⟨r, hr, ?_⟩
  rw [← copied_true]
  apply helper2_text_of_take r (n := 0 + (copied true src).length) (by omega) _ hz
    (copied_ne_zero true src hnz)
  simpa using htake

/-- Witness for C5: the source `a,b\c` yields `a\,b\\c` (bytes 97 44 98 92 99
and 97 92 44 98 92 92 99). -/
theorem helper2_escapes_witness :
    ∃ r, __ast_str_helper2 (growFill 7) ⟨2, 0, [0, 7]⟩ 0 [97, 44, 98, 92, 99] 5 false true = .ok r
      ∧ r.text = [97, 92, 44, 98, 92, 92, 99] :=
  helper2_escapes (growFill 7) ⟨2, 0, [0, 7]⟩ [97, 44, 98, 92, 99] 5
    (growFill_sound 7) (growFill_always 7) (by decide) (by decide) (by decide) (by decide)

/-- C6: for every source of `L` non-terminator bytes with `maxsrc` at least `L`,
copied in set mode with escaping off and `maxlen = 0` into a buffer of capacity
8 by a `make_space` that always succeeds with exactly the doubled capacity,
`__ast_str_helper2` returns, the returned text is the source (`L` bytes and the
terminator), the `make_space` requests are the doublings 8 to 16, 16 to 32 and
so on, the final capacity is `8 * 2 ^ k` for the number `k` of requests and at
most `max 8 (2 * (L + 3))`, and `k` is at most `log2 ((L + 3) / 4)` when it is
not zero. -/
theorem helper2_doubling_growth (make_space : ast_str → Nat → Option ast_str)
    (buf : ast_str) (src : List Nat) (maxsrc : Nat)
    (hgrow : GrowSound make_space) (halways : GrowAlways make_space)
    (hexact : GrowExact make_space)
    (hwf : buf.__AST_STR_STR.length = buf.__AST_STR_LEN)
    (hcap : buf.__AST_STR_LEN = 8)
    (hnz : ∀ c ∈ src, c ≠ 0) (hlen : src.length ≤ maxsrc) :
    ∃ r, __ast_str_helper2 make_space buf 0 src maxsrc false false = .ok r
      ∧ r.text = src
      ∧ r.buf.__AST_STR_STR.take src.length = src
      ∧ r.buf.__AST_STR_STR[src.length]? = some 0
      ∧ ∃ k, r.grows = growTrace k
          ∧ r.buf.__AST_STR_LEN = 8 * 2 ^ k
          ∧ r.buf.__AST_STR_LEN ≤ max 8 (2 * (src.length + 3))
          ∧ (k ≠ 0 → k ≤ Nat.log 2 ((src.length + 3) / 4)) := by
  obtain ⟨r, st1, hr, hq1, hl1, hg1, hp1, hwf1, hlt, htake, hz, _⟩ :=
    helper2_dynamic make_space hgrow halways buf src maxsrc false false DoublingInv
      (doublingInv_step make_space hgrow halways hexact) (p := 0) (by simp) hwf
      (by simp [passWidth]; omega) hnz hlen
      ⟨by simp only; omega, 0, rfl, by simpa using hcap, Or.inl rfl⟩
  rw [copied_false] at hp1 hlt htake hz
  simp only [Nat.zero_add, List.take_zero, List.nil_append] at hp1 hlt htake hz
  refine ⟨r, hr, helper2_text_of_take r (by omega) htake hz hnz, htake, hz, ?_⟩
  obtain ⟨_, k, hk, hlenk, hbound⟩ := hq1
  rw [hl1] at hlenk hbound
  rw [hg1] at hk
  rw [hp1] at hbound
  refine ⟨k, hk, hlenk, ?_, ?_⟩
  · rcases hbound with h | h
    · subst h; simp [hlenk]
    · exact le_trans h (le_max_right _ _)
  · intro hk0
    rcases hbound with h | h
    · exact absurd h hk0
    · apply Nat.le_log_of_pow_le (by decide)
      rw [Nat.le_div_iff_mul_le (by decide)]
      omega

/-- Witness for C6: a source of 13 bytes. -/
theorem helper2_doubling_growth_witness :
    ∃ r, __ast_str_helper2 (growFill 7) ⟨8, 0, [0, 7, 7, 7, 7, 7, 7, 7]⟩ 0
        (List.replicate 13 65) 13 false false = .ok r
      ∧ r.text = List.replicate 13 65
      ∧ r.buf.__AST_STR_STR.take 13 = List.replicate 13 65
      ∧ r.buf.__AST_STR_STR[13]? = some 0
      ∧ ∃ k, r.grows = growTrace k
          ∧ r.buf.__AST_STR_LEN = 8 * 2 ^ k
          ∧ r.buf.__AST_STR_LEN ≤ max 8 (2 * (13 + 3))
          ∧ (k ≠ 0 → k ≤ Nat.log 2 ((13 + 3) / 4)) :=
  helper2_doubling_growth (growFill 7) ⟨8, 0, [0, 7, 7, 7, 7, 7, 7, 7]⟩ (List.replicate 13 65) 13
    (growFill_sound 7) (growFill_always 7) (growFill_exact 7)
    (by decide) (by decide) (by decide) (by decide)

/-- C7: for every buffer holding the text `P` in its first `used` bytes, every
positive `maxlen = N` with `used + N + 3` below the capacity, mode append,
escaping off, and every source of non-terminator bytes with `maxsrc` at least
its length, the text returned by `__ast_str_helper2` is `P` followed by the
first `N - 1` bytes of the source when the source has at least `N` bytes, and
`P` followed by the whole source otherwise; `make_space` is never called. -/
theorem helper2_budget_exhaustion (make_space : ast_str → Nat → Option ast_str)
    (buf : ast_str) (P src : List Nat) (N maxsrc : Nat)
    (hwf : buf.__AST_STR_STR.length = buf.__AST_STR_LEN)
    (hP : buf.__AST_STR_STR.take buf.__AST_STR_USED = P)
    (hPnz : ∀ c ∈ P, c ≠ 0)
    (hN : 0 < N) (hroom : buf.__AST_STR_USED + N + 3 < buf.__AST_STR_LEN)
    (hnz : ∀ c ∈ src, c ≠ 0) (hlen : src.length ≤ maxsrc) :
    ∃ r, __ast_str_helper2 make_space buf (N : Int) src maxsrc true false = .ok r
      ∧ r.grows = []
      ∧ r.text = P ++ (if N ≤ src.length then src.take (N - 1) else src) := by
  obtain ⟨st1, hl, hwf1, hlen1, hg1, hp1, hmax1, ht1⟩ :=
    copy_loop_fixed make_space src maxsrc ⟨buf, buf.__AST_STR_USED, (N : Int), []⟩ N hnz hlen
      hwf rfl hroom
  simp only at hlen1 hg1 hp1 ht1
  have hdyn : decide ((N : Int) = 0) = false := by simp; omega
  have hml : (if (N : Int) < 1 then (buf.__AST_STR_LEN : Int) else (N : Int)) = (N : Int) := by
    rw [if_neg]; omega
  have hnot : ¬ (st1.maxlen = 0 ∧ st1.ptr = 0) := by
    rw [hmax1, hp1]; intro h; omega
  by_cases hbig : N ≤ src.length
  · have hmin : min src.length N = N := by omega
    rw [hmin] at hp1 hmax1
    have hz : st1.maxlen = 0 := by rw [hmax1]; simp
    have hlt : st1.ptr - 1 < st1.buf.__AST_STR_STR.length := by omega
    refine ⟨⟨{ st1.buf with __AST_STR_STR := st1.buf.__AST_STR_STR.set (st1.ptr - 1) 0 }, st1.grows⟩,
      ?_, hg1, ?_⟩
    · simp only [__ast_str_helper2, hdyn, hml, if_true, hl, if_neg hnot, if_pos hz,
        poke_of_lt 0 hlt]
    · rw [if_pos hbig]
      apply helper2_text_of_take _ (n := st1.ptr - 1) (by simpa using hlt)
      · simp only
        rw [take_set_of_le _ _ (le_refl _)]
        have : List.take (st1.ptr - 1) st1.buf.__AST_STR_STR
            = List.take (st1.ptr - 1) (List.take st1.ptr st1.buf.__AST_STR_STR) := by
          rw [List.take_take]; congr 1; omega
        rw [this, ht1, hP]
        have hPlen : P.length = buf.__AST_STR_USED := by
          rw [← hP, List.length_take]; omega
        rw [List.take_append_eq_append_take, List.take_of_length_le (by omega), List.take_take]
        congr 2
        omega
      · simp only
        rw [List.getElem?_set_self hlt]
      · intro c hc
        rcases List.mem_append.mp hc with h | h
        · exact hPnz c h
        · exact hnz c (List.mem_of_mem_take h)
  · have hmin : min src.length N = src.length := by omega
    rw [hmin] at hp1 hmax1
    have hz : st1.maxlen ≠ 0 := by rw [hmax1]; omega
    have hlt : st1.ptr < st1.buf.__AST_STR_STR.length := by omega
    refine ⟨⟨{ st1.buf with __AST_STR_STR := st1.buf.__AST_STR_STR.set st1.ptr 0 }, st1.grows⟩,
      ?_, hg1, ?_⟩
    · simp only [__ast_str_helper2, hdyn, hml, if_true, hl, if_neg hnot, if_neg hz,
        poke_of_lt 0 hlt]
    · rw [if_neg hbig]
      apply helper2_text_of_take _ (n := st1.ptr) (by simpa using hlt)
      · simp only
        rw [take_set_of_le _ _ (le_refl _), ht1, hP, List.take_of_length_le (by omega)]
      · simp only
        rw [List.getElem?_set_self hlt]
      · intro c hc
        rcases List.mem_append.mp hc with h | h
        · exact hPnz c h
        · exact hnz c h

/-- Witness for C7: content "ab", capacity 16, `maxlen = 3`, source "xyz",
append: the returned text is "abxy". -/
theorem helper2_budget_exhaustion_witness :
    ∃ r, __ast_str_helper2 growFail abBuf16 3 [120, 121, 122] 3 true false = .ok r
      ∧ r.grows = []
      ∧ r.text = [97, 98, 120, 121] :=
  helper2_budget_exhaustion growFail abBuf16 [97, 98] [120, 121, 122] 3 3
    (by decide) (by decide) (by decide) (by decide) (by decide) (by decide) (by decide)

/-- Counterexample to C11 as stated: appending 50 bytes in unbounded mode to the
16-byte buffer holding "ab", with a `make_space` that fails, returns
`AST_DYNSTR_BUILD_FAILED` and leaves `used = 15` and the text "ab" followed by
13 rendered bytes, not the `used = 2` and the text "ab" from before the call. -/
theorem helper_grow_failure_counterexample :
    abBuf16.__AST_STR_STR.length = abBuf16.__AST_STR_LEN
      ∧ abBuf16.__AST_STR_USED < abBuf16.__AST_STR_LEN
      ∧ abBuf16.__AST_STR_LEN < abBuf16.__AST_STR_USED + fiftyBytes.length + 1
      ∧ ∃ r, __ast_str_helper growFail 2 abBuf16 0 true (.text fiftyBytes) = .ok r
          ∧ r.res = AST_DYNSTR_BUILD_FAILED
          ∧ r.buf.__AST_STR_USED = 15
          ∧ r.buf.__AST_STR_USED ≠ abBuf16.__AST_STR_USED
          ∧ cstr r.buf.__AST_STR_STR = [97, 98] ++ List.replicate 13 65
          ∧ cstr r.buf.__AST_STR_STR ≠ cstr abBuf16.__AST_STR_STR :=
  ⟨by decide, by decide, by decide, _, rfl, by decide, by decide, by decide, by decide,
    by decide⟩

/-- C11 (amended): for every buffer with `used` below its capacity, mode append,
a `max_len` that permits growth (zero, or above the capacity), a rendering `t`
with `used + length t + 1` above the capacity and at most `INT_MAX`, and a
`make_space` that fails, `__ast_str_helper` returns `AST_DYNSTR_BUILD_FAILED`
and leaves the capacity as it was and the truncated write in the buffer: `used`
is the capacity minus one, the content is the prior `used` bytes followed by
the first bytes of `t` that fit, and the terminator stands at the new `used`. -/
theorem helper_grow_failure_truncates (make_space : ast_str → Nat → Option ast_str)
    (fuel : Nat) (buf : ast_str) (max_len : Int) (t : List Nat)
    (hfail : ∀ b n, make_space b n = none)
    (hfuel : 1 ≤ fuel)
    (hwf : buf.__AST_STR_STR.length = buf.__AST_STR_LEN)
    (hused : buf.__AST_STR_USED < buf.__AST_STR_LEN)
    (hpolicy : max_len = 0 ∨ (buf.__AST_STR_LEN : Int) < max_len)
    (hneed : buf.__AST_STR_LEN < buf.__AST_STR_USED + t.length + 1)
    (hint : buf.__AST_STR_USED + t.length + 1 ≤ 2147483647) :
    ∃ r, __ast_str_helper make_space fuel buf max_len true (.text t) = .ok r
      ∧ r.res = AST_DYNSTR_BUILD_FAILED
      ∧ r.buf.__AST_STR_LEN = buf.__AST_STR_LEN
      ∧ r.buf.__AST_STR_USED = buf.__AST_STR_LEN - 1
      ∧ r.buf.__AST_STR_STR.take (buf.__AST_STR_LEN - 1)
          = buf.__AST_STR_STR.take buf.__AST_STR_USED
              ++ t.take (buf.__AST_STR_LEN - 1 - buf.__AST_STR_USED)
      ∧ r.buf.__AST_STR_STR[buf.__AST_STR_LEN - 1]? = some 0 := by
  obtain ⟨k, rfl⟩ : ∃ k, fuel = k + 1 := ⟨fuel - 1, by omega⟩
  have hstart := start_offset true hused (fun _ => by omega)
  rw [if_pos rfl] at hstart
  have hml : (if max_len < 0 then (buf.__AST_STR_LEN : Int) else max_len) = max_len := by
    rw [if_neg]; omega
  have hneedz : to_int ((buf.__AST_STR_USED : Int) + (t.length : Int) + 1)
      = ((buf.__AST_STR_USED + t.length + 1 : Nat) : Int) := to_int_need _ _ hint
  have hh := helper_grow_fails make_space k buf max_len true t hfail hwf hstart hused hml
    (by omega) (by rw [hneedz, to_size_t_cast _ hint]; omega)
  obtain ⟨h1, h2, h3⟩ := fmtFinish_trunc buf t hwf hused (by omega) (by omega)
  exact ⟨_, hh, rfl, rfl, h1, h2, h3⟩

/-- Witness for C11 (amended): 50 bytes appended to "ab" in a 16-byte buffer that
cannot grow. -/
theorem helper_grow_failure_truncates_witness :
    ∃ r, __ast_str_helper growFail 1 abBuf16 0 true (.text fiftyBytes) = .ok r
      ∧ r.res = AST_DYNSTR_BUILD_FAILED
      ∧ r.buf.__AST_STR_LEN = 16
      ∧ r.buf.__AST_STR_USED = 15
      ∧ r.buf.__AST_STR_STR.take 15 = [97, 98] ++ List.replicate 13 65
      ∧ r.buf.__AST_STR_STR[15]? = some 0 :=
  helper_grow_failure_truncates growFail 1 abBuf16 0 fiftyBytes
    (fun _ _ => rfl) (by decide) (by decide) (by decide) (by decide) (by decide) (by decide)

/-- C12: the code at a failing input. The full 4-byte buffer holding "abc"
satisfies the data-model invariants. A dynamic append of "x" with a `make_space`
that fails stores "x" at index 3, requests a capacity of 8, and leaves the loop
with the cursor at 4 and a budget of 3; the terminator is therefore stored at
index 4, which is the capacity: the run ends out of bounds. -/
theorem helper2_grow_failure_terminator_out_of_bounds :
    Invariants fullBuf4
      ∧ copy_loop growFail true false [120] 1 ⟨fullBuf4, 3, 4, []⟩
          = .ok ⟨⟨4, 4, [97, 98, 99, 120]⟩, 4, 3, [(4, 8)]⟩
      ∧ poke [97, 98, 99, 120] 4 0 = none
      ∧ __ast_str_helper2 growFail fullBuf4 0 [120] 1 true false = .error .outOfBounds :=
  ⟨⟨by decide, by decide, by decide⟩, rfl, rfl, rfl⟩

/-- C14: the code at a failing input. The 16-byte buffer holding "ab" satisfies
the data-model invariants. A dynamic set of "xyz" leaves the terminator at
index 3 but `used = 5`; the following append of "w" starts at index 5, beyond
the terminator, so the returned text is "xyz" and not "xyzw". -/
theorem helper2_set_then_append_loses_append :
    Invariants abBuf16
      ∧ ∃ r1 r2, __ast_str_helper2 (growFill 7) abBuf16 0 [120, 121, 122] 3 false false = .ok r1
          ∧ __ast_str_helper2 (growFill 7) r1.buf 0 [119] 1 true false = .ok r2
          ∧ r1.text = [120, 121, 122]
          ∧ r1.buf.__AST_STR_USED = 5
          ∧ r2.buf.__AST_STR_STR = [120, 121, 122, 0, 7, 119, 0, 7, 7, 7, 7, 7, 7, 7, 7, 7]
          ∧ r2.text = [120, 121, 122]
          ∧ r2.text ≠ [120, 121, 122] ++ [119] :=
  ⟨⟨by decide, by decide, by decide⟩, _, _, rfl, rfl, by decide, by decide, by decide,
    by decide, by decide⟩

/-- C15: for every buffer satisfying the data-model invariants, `maxlen = 0`
(dynamic), escaping off, a `make_space` that always succeeds with at least the
doubled capacity, and sources `s1`, `s2` of non-terminator bytes with source
limits at least their lengths, appending `s1` and then `s2` returns the same
text as appending `s1 ++ s2` in one call; in both cases the storage holds the
prior `used` bytes followed by `s1 ++ s2` and the terminator. -/
theorem helper2_split_append (make_space : ast_str → Nat → Option ast_str)
    (buf : ast_str) (s1 s2 : List Nat) (m1 m2 m : Nat)
    (hgrow : GrowSound make_space) (halways : GrowAlways make_space)
    (hinv : Invariants buf)
    (hnz1 : ∀ c ∈ s1, c ≠ 0) (hnz2 : ∀ c ∈ s2, c ≠ 0)
    (hm1 : s1.length ≤ m1) (hm2 : s2.length ≤ m2) (hm : s1.length + s2.length ≤ m) :
    ∃ r1 r2 r, __ast_str_helper2 make_space buf 0 s1 m1 true false = .ok r1
      ∧ __ast_str_helper2 make_space r1.buf 0 s2 m2 true false = .ok r2
      ∧ __ast_str_helper2 make_space buf 0 (s1 ++ s2) m true false = .ok r
      ∧ r2.text = r.text
      ∧ r2.buf.__AST_STR_STR.take (buf.__AST_STR_USED + s1.length + s2.length)
          = buf.__AST_STR_STR.take buf.__AST_STR_USED ++ s1 ++ s2
      ∧ r.buf.__AST_STR_STR.take (buf.__AST_STR_USED + s1.length + s2.length)
          = buf.__AST_STR_STR.take buf.__AST_STR_USED ++ s1 ++ s2 := by
  obtain ⟨hwf, hused, _⟩ := hinv
  have hpw : passWidth false = 1 := rfl
  obtain ⟨r1, _, hr1, _, _, _, _, hwf1, hlt1, ht1, _, hu1⟩ :=
    helper2_dynamic make_space hgrow halways buf s1 m1 true false (fun _ => True)
      (fun _ _ _ _ _ _ => trivial) (p := buf.__AST_STR_USED) (by simp) hwf (by omega)
      hnz1 hm1 trivial
  rw [copied_false] at hlt1 ht1 hu1
  obtain ⟨r2, _, hr2, _, _, _, _, _, _, ht2, hz2, _⟩ :=
    helper2_dynamic make_space hgrow halways r1.buf s2 m2 true false (fun _ => True)
      (fun _ _ _ _ _ _ => trivial) (p := r1.buf.__AST_STR_USED) (by simp) hwf1 (by omega)
      hnz2 hm2 trivial
  rw [copied_false, hu1] at ht2 hz2
  obtain ⟨r, _, hr, _, _, _, _, _, _, ht, hz, _⟩ :=
    helper2_dynamic make_space hgrow halways buf (s1 ++ s2) m true false (fun _ => True)
      (fun _ _ _ _ _ _ => trivial) (p := buf.__AST_STR_USED) (by simp) hwf (by omega)
      (fun c hc => (List.mem_append.mp hc).elim (hnz1 c) (hnz2 c))
      (by simpa using hm) trivial
  rw [copied_false, List.length_append, ← Nat.add_assoc] at ht hz
  rw [ht1] at ht2
  rw [← List.append_assoc] at ht
  refine ⟨r1, r2, r, hr1, hr2, hr, ?_, ht2, ht⟩
  exact cstr_eq_of_take (ht2.trans ht.symm) hz2 hz

/-- Witness for C15: "xy" then "z" appended to the 16-byte buffer holding "ab". -/
theorem helper2_split_append_witness :
    ∃ r1 r2 r, __ast_str_helper2 (growFill 7) abBuf16 0 [120, 121] 2 true false = .ok r1
      ∧ __ast_str_helper2 (growFill 7) r1.buf 0 [122] 1 true false = .ok r2
      ∧ __ast_str_helper2 (growFill 7) abBuf16 0 ([120, 121] ++ [122]) 3 true false = .ok r
      ∧ r2.text = r.text
      ∧ r2.buf.__AST_STR_STR.take (2 + 2 + 1) = [97, 98] ++ [120, 121] ++ [122]
      ∧ r.buf.__AST_STR_STR.take (2 + 2 + 1) = [97, 98] ++ [120, 121] ++ [122] :=
  helper2_split_append (growFill 7) abBuf16 [120, 121] [122] 2 1 3
    (growFill_sound 7) (growFill_always 7) ⟨by decide, by decide, by decide⟩
    (by decide) (by decide) (by decide) (by decide) (by decide)

/-- C17: the code at a failing input. The empty 4-byte buffer satisfies the
data-model invariants. A set of the 5-byte source "xyzvw" with `maxlen = 3` and
a doubling `make_space` grows the buffer after the first byte, which replaces
the remaining budget by the old capacity; all 5 bytes are returned, not the
first 2. -/
theorem helper2_positive_budget_exceeded :
    Invariants rawBuf4
      ∧ ∃ r, __ast_str_helper2 (growFill 7) rawBuf4 3 [120, 121, 122, 118, 119] 5 false false
            = .ok r
          ∧ r.text = [120, 121, 122, 118, 119]
          ∧ r.grows = [(4, 8), (8, 16)]
          ∧ ¬ r.text.length ≤ 3 - 1
          ∧ r.text ≠ [120, 121, 122, 118, 119].take (min 5 (3 - 1)) :=
  ⟨⟨by decide, by decide, by decide⟩, _, rfl, by decide, by decide, by decide, by decide⟩

/-- C19: the code at a failing input. The full 16-byte buffer satisfies the
data-model invariants and `make_space` doubles on demand. A dynamic append of
"," with escaping stores the backslash at index 15 and moves the cursor to 16,
the capacity, where the comma is stored next: the run ends out of bounds. -/
theorem helper2_escape_store_out_of_bounds :
    Invariants fullBuf16
      ∧ (∃ st, copy_escape true 44 ⟨fullBuf16, 15, 16, []⟩ = .ok st
          ∧ st.ptr = 16 ∧ st.buf.__AST_STR_LEN = 16
          ∧ poke st.buf.__AST_STR_STR st.ptr 44 = none)
      ∧ __ast_str_helper2 (growFill 7) fullBuf16 0 [44] 1 true true = .error .outOfBounds :=
  ⟨⟨by decide, by decide, by decide⟩, ⟨_, rfl, by decide, by decide, by decide⟩, rfl⟩

/-- C20: the code at a failing input. The 16-byte buffer holding "ab" satisfies
the data-model invariants. A set of the source "a," with escaping and
`maxlen = 3` stores "a", the backslash and the comma, which uses up the budget;
the cursor then backs up over the comma and the returned text is "a" followed
by a lone backslash, which is not the escaped form of any prefix of the source. -/
theorem helper2_escape_pair_cut :
    Invariants abBuf16
      ∧ ∃ r, __ast_str_helper2 (growFill 7) abBuf16 3 [97, 44] 2 false true = .ok r
          ∧ r.text = [97, 92]
          ∧ ∀ k, r.text ≠ escapedText ([97, 44].take k) := by
  refine ⟨⟨by decide, by decide, by decide⟩, _, rfl, by decide, ?_⟩
  intro k
  rcases k with _ | _ | k
  · decide
  · decide
  · have : List.take (k + 1 + 1) [97, 44] = [97, 44] := by simp
    rw [this]
    decide

end AstStr
